import Mathlib

/-!
# Verification of `assignment1/BridgeCrossingSolution.py`

A shallow embedding of the bridge/umbrella crossing solvers:

* `solve_bridge_problem_bfs` — the priority-queue (Dijkstra-style) solver;
* `solve_bridge_problem_dfs` — the depth-first branch-and-bound solver;
* `print_bridge_solution`   — the step-by-step solution reporter.

Modelling decisions (all value-preserving):

* People are natural numbers.  A Python dict `crossing_times` is split into
  its key set (`people : Finset Nat`, the `crossing_times.keys()`) and its
  lookup function (`times : Nat → Nat`); every lookup performed by the code
  is on a member of `people`, so no `KeyError` can occur.
* Python frozensets become `Finset Nat`.
* The `heapq` priority queue becomes a list kept sorted by cumulative time
  (`pqPush` inserts in order, popping takes the head).  Python breaks ties
  between equal-time entries by comparing paths; we keep insertion order.
  Tie order affects only which of several equal-cost entries is popped
  first, never the time values computed.
* `itertools.combinations(move_from, k)` for `k ∈ {1, 2}` becomes an
  explicit enumeration (`singleGroups`, `pairGroups`) over the sorted list
  of the moving side's occupants.  Python iterates a frozenset in an
  unspecified order; we iterate in sorted order.  The set of generated
  groups is identical.
* The Python `while` loops become fuel-indexed recursion: `none` means the
  fuel ran out (the Python loop always terminates, so theorems about a run
  are stated for executions that return `some`).
* `float('inf')` sentinels (`min_total_time`, absent `visited` entries)
  become `Option Nat` with `none` as infinity.
-/

set_option maxRecDepth 8000

/-- The `umbrella_pos` component of a configuration: the Python strings
`'start'` / `'end'`. -/
inductive UmbPos where
  | ustart
  | uend
deriving DecidableEq

/-- A search state: the tuple `(start_side, end_side, umbrella_pos)`. -/
structure Config where
  start_side : Finset Nat
  end_side : Finset Nat
  umbrella_pos : UmbPos

theorem Config.ext_iff_fields (a b : Config) :
    a = b ↔ a.start_side = b.start_side ∧ a.end_side = b.end_side ∧
      a.umbrella_pos = b.umbrella_pos := by
  cases a; cases b; simp [Config.mk.injEq]

instance : DecidableEq Config := fun a b =>
  decidable_of_iff _ (Config.ext_iff_fields a b).symm

/-- Default configuration used only to read the last element of a
(nonempty) path, mirroring Python's `path[-1]`. -/
def cfg0 : Config := ⟨∅, ∅, UmbPos.ustart⟩

/-- `initial_state = (frozenset(all_people), frozenset(), 'start')`. -/
def initial_state (people : Finset Nat) : Config :=
  ⟨people, ∅, UmbPos.ustart⟩

/-- The side people move from: `start_side` when the umbrella is at the
start, otherwise `end_side` (source lines 38–43). -/
def move_from (c : Config) : Finset Nat :=
  if c.umbrella_pos = UmbPos.ustart then c.start_side else c.end_side

/-- Where the umbrella is after a move (source lines 38–43). -/
def move_to_pos (c : Config) : UmbPos :=
  if c.umbrella_pos = UmbPos.ustart then UmbPos.uend else UmbPos.ustart

/-- The configuration after moving the group `g` (source lines 59–67):
the group's side membership flips, as does the umbrella. -/
def apply_group (c : Config) (g : Finset Nat) : Config :=
  if c.umbrella_pos = UmbPos.ustart then
    ⟨c.start_side \ g, c.end_side ∪ g, move_to_pos c⟩
  else
    ⟨c.start_side ∪ g, c.end_side \ g, move_to_pos c⟩

/-- Enumerate a finite set of people as a sorted list (insertion sort,
which reduces inside the kernel). -/
def sortedSide (s : Finset Nat) : List Nat :=
  Quot.liftOn s.val (List.insertionSort (· ≤ ·)) fun a b h =>
    List.eq_of_perm_of_sorted
      ((List.perm_insertionSort _ a).trans
        (h.trans (List.perm_insertionSort _ b).symm))
      (List.sorted_insertionSort _ a) (List.sorted_insertionSort _ b)

/-- The moving side's occupants as a (sorted) list, for group
enumeration. -/
def sideList (c : Config) : List Nat :=
  sortedSide (move_from c)

/-- `combinations(move_from, 1)` as singleton finsets. -/
def singleGroups (l : List Nat) : List (Finset Nat) :=
  l.map fun a => {a}

/-- `combinations(move_from, 2)` as two-element finsets. -/
def pairGroups : List Nat → List (Finset Nat)
  | [] => []
  | a :: rest => (rest.map fun b => ({a, b} : Finset Nat)) ++ pairGroups rest

/-- All groups tried from a configuration: sizes 1 and 2
(source lines 46–51). -/
def groupsOf (c : Config) : List (Finset Nat) :=
  singleGroups (sideList c) ++ pairGroups (sideList c)

/-- `trip_time = max(crossing_times[person] for person in group)`
(source line 52).  The group is always nonempty, so the `Finset.sup`
with bottom `0` is the true maximum. -/
def trip_time (times : Nat → Nat) (g : Finset Nat) : Nat :=
  g.sup times

/-- All `(trip_time, new_config)` successors of a configuration. -/
def succs (times : Nat → Nat) (c : Config) : List (Nat × Config) :=
  (groupsOf c).map fun g => (trip_time times g, apply_group c g)

/-- The `visited_times` dict: an insertion-ordered association list. -/
abbrev VMap := List (Config × Nat)

/-- Dict lookup. -/
def vlookup : VMap → Config → Option Nat
  | [], _ => none
  | e :: m, c => if e.1 = c then some e.2 else vlookup m c

/-- Dict assignment (replaces in place like a Python dict). -/
def vupdate : VMap → Config → Nat → VMap
  | [], c, t => [(c, t)]
  | e :: m, c, t => if e.1 = c then (c, t) :: m else e :: vupdate m c t

/-- `new_config not in visited or new_total < visited[new_config]`
(source line 70), with `none` standing for "not in the dict". -/
def better (nt : Nat) : Option Nat → Bool
  | none => true
  | some v => decide (nt < v)

/-- `current_time > visited.get(config, inf)` (source line 34):
false when the configuration is absent (nothing exceeds infinity). -/
def staleB (t : Nat) : Option Nat → Bool
  | none => false
  | some v => decide (v < t)

/-- `current_time >= min_total_time` (source line 109), where `none` is
the `float('inf')` initial value. -/
def geInf (t : Nat) : Option Nat → Bool
  | none => false
  | some m => decide (m ≤ t)

/-- The `heapq` priority queue: a list of `(cumulative_time, path)`
entries kept sorted by time. -/
abbrev PQ := List (Nat × List Config)

/-- `heapq.heappush`: ordered insertion (after existing equal keys). -/
def pqPush : PQ → Nat × List Config → PQ
  | [], e => [e]
  | x :: xs, e => if e.1 < x.1 then e :: x :: xs else x :: pqPush xs e

/-- One relaxation of the BFS inner loop body (source lines 50–73) for a
single `group`: compute the trip time, prune over-limit totals, and on
improvement record the new visited time and push the extended path. -/
def bfsRelax (times : Nat → Nat) (limit t : Nat) (path : List Config)
    (cfg : Config) (s : PQ × VMap) (g : Finset Nat) : PQ × VMap :=
  if limit < t + trip_time times g then s
  else if better (t + trip_time times g) (vlookup s.2 (apply_group cfg g)) then
    (pqPush s.1 (t + trip_time times g, path ++ [apply_group cfg g]),
     vupdate s.2 (apply_group cfg g) (t + trip_time times g))
  else s

/-- The whole `for num_people / for group` expansion of one popped BFS
entry (source lines 46–73). -/
def bfsExpand (times : Nat → Nat) (limit t : Nat) (path : List Config)
    (cfg : Config) (rest : PQ) (vis : VMap) : PQ × VMap :=
  (groupsOf cfg).foldl (bfsRelax times limit t path cfg) (rest, vis)

/-- The BFS `while pq:` loop (source lines 18–75), fuel-indexed.
Returns `none` when the fuel runs out, otherwise `some` of the Python
return value `(best_time, path, visited_times)`. -/
def bfsLoop (times : Nat → Nat) (limit : Nat) :
    Nat → PQ → VMap → Option (Option Nat × Option (List Config) × VMap)
  | 0, _, _ => none
  | _ + 1, [], vis => some (none, none, vis)
  | fuel + 1, (t, path) :: rest, vis =>
    if (path.getLastD cfg0).start_side = ∅ then
      if t ≤ limit then some (some t, some path, vis)
      else bfsLoop times limit fuel rest vis
    else if staleB t (vlookup vis (path.getLastD cfg0)) then
      bfsLoop times limit fuel rest vis
    else
      bfsLoop times limit fuel
        (bfsExpand times limit t path (path.getLastD cfg0) rest vis).1
        (bfsExpand times limit t path (path.getLastD cfg0) rest vis).2

/-- `solve_bridge_problem_bfs` (source lines 5–75). -/
def solve_bridge_problem_bfs (people : Finset Nat) (times : Nat → Nat)
    (limit fuel : Nat) : Option (Option Nat × Option (List Config) × VMap) :=
  bfsLoop times limit fuel [(0, [initial_state people])]
    [(initial_state people, 0)]

/-- A DFS stack entry `(current_time, current_path, current_config)`. -/
abbrev DStack := List (Nat × List Config × Config)

/-- One relaxation of the DFS move collection (source lines 129–151):
like `bfsRelax`, but improvements are appended to the `possible_moves`
list instead of being pushed directly. -/
def dfsRelax (times : Nat → Nat) (limit t : Nat) (path : List Config)
    (cfg : Config) (s : DStack × VMap) (g : Finset Nat) : DStack × VMap :=
  if limit < t + trip_time times g then s
  else if better (t + trip_time times g) (vlookup s.2 (apply_group cfg g)) then
    (s.1 ++ [(t + trip_time times g, path ++ [apply_group cfg g],
              apply_group cfg g)],
     vupdate s.2 (apply_group cfg g) (t + trip_time times g))
  else s

/-- Collect the `possible_moves` of one popped DFS entry
(source lines 124–151). -/
def dfsExpand (times : Nat → Nat) (limit t : Nat) (path : List Config)
    (cfg : Config) (vis : VMap) : DStack × VMap :=
  (groupsOf cfg).foldl (dfsRelax times limit t path cfg) ([], vis)

/-- Stable insertion into a list sorted by descending time: the element
goes before the first strictly smaller key. -/
def insDesc (e : Nat × List Config × Config) : DStack → DStack
  | [] => [e]
  | x :: xs => if x.1 < e.1 then e :: x :: xs else x :: insDesc e xs

/-- `sorted(possible_moves, key=time, reverse=True)` (source line 156):
stable descending sort. -/
def sortDesc (l : DStack) : DStack :=
  l.foldr insDesc []

/-- `for move in ...: stack.append(move)` (source lines 156–157): each
append puts the move on top, so the last (cheapest) move is popped
first. -/
def pushAll (l : DStack) (st : DStack) : DStack :=
  l.foldl (fun acc m => m :: acc) st

/-- The DFS `while stack:` loop (source lines 96–159), fuel-indexed.
`minT = none` models `min_total_time == float('inf')`, so the Python
return value `min_total_time if min_total_time != float('inf') else None`
is `minT` itself. -/
def dfsLoop (times : Nat → Nat) (limit : Nat) :
    Nat → DStack → VMap → Option Nat → Option (List Config) →
    Option (Option Nat × Option (List Config) × VMap)
  | 0, _, _, _, _ => none
  | _ + 1, [], vis, minT, best => some (minT, best, vis)
  | fuel + 1, (t, path, cfg) :: rest, vis, minT, best =>
    if cfg.start_side = ∅ then
      if better t minT && decide (t ≤ limit) then
        dfsLoop times limit fuel rest vis (some t) (some path)
      else dfsLoop times limit fuel rest vis minT best
    else if geInf t minT || decide (limit < t) then
      dfsLoop times limit fuel rest vis minT best
    else if staleB t (vlookup vis cfg) then
      dfsLoop times limit fuel rest vis minT best
    else
      dfsLoop times limit fuel
        (pushAll (sortDesc (dfsExpand times limit t path cfg vis).1) rest)
        (dfsExpand times limit t path cfg vis).2 minT best

/-- `solve_bridge_problem_dfs` (source lines 78–159). -/
def solve_bridge_problem_dfs (people : Finset Nat) (times : Nat → Nat)
    (limit fuel : Nat) : Option (Option Nat × Option (List Config) × VMap) :=
  dfsLoop times limit fuel [(0, [initial_state people], initial_state people)]
    [(initial_state people, 0)] none none

/-- Project the returned `best_time` out of a solver run. -/
def bestOf (r : Option (Option Nat × Option (List Config) × VMap)) :
    Option (Option Nat) :=
  r.map fun x => x.1

/-- Project the returned path out of a solver run. -/
def pathOf (r : Option (Option Nat × Option (List Config) × VMap)) :
    Option (Option (List Config)) :=
  r.map fun x => x.2.1

/-! ## The solution reporter (`print_bridge_solution`, source lines 162–193)

The printer is modelled as a function producing structured output instead
of text: `Sum.inl` is the "no solution" message branch, `Sum.inr` the list
of rendered steps.  A dictionary lookup that would raise a `KeyError` in
Python makes the result `none`. -/

/-- One rendered step: who moved, in which direction (`true` = start to
end, Python's `"-->"`), the trip duration (`visited[next] - visited[prev]`,
an integer difference exactly as Python computes it), the cumulative
elapsed time, and both sides after the step. -/
structure StepDesc where
  moved : Finset Nat
  towardEnd : Bool
  trip : Int
  elapsed : Nat
  startAfter : Finset Nat
  endAfter : Finset Nat

/-- The message printed when `path` is `None` or empty (source line 193). -/
def noSolutionMsg : String := "No solution could be found within the time limit."

/-- Render one consecutive pair of configurations
(source lines 170–191). -/
def renderStep (vmap : VMap) (prev next : Config) : Option StepDesc :=
  match vlookup vmap next, vlookup vmap prev with
  | some tn, some tp =>
    some { moved := if prev.umbrella_pos = UmbPos.ustart then
                      prev.start_side \ next.start_side
                    else next.start_side \ prev.start_side
         , towardEnd := prev.umbrella_pos = UmbPos.ustart
         , trip := (tn : Int) - (tp : Int)
         , elapsed := tn
         , startAfter := next.start_side
         , endAfter := next.end_side }
  | _, _ => none

/-- Render every consecutive pair (`for i in range(len(path) - 1)`). -/
def renderSteps (vmap : VMap) : List Config → Option (List StepDesc)
  | a :: b :: rest =>
    match renderStep vmap a b, renderSteps vmap (b :: rest) with
    | some s, some ss => some (s :: ss)
    | _, _ => none
  | _ => some []

/-- `print_bridge_solution` (source lines 162–193): Python's `if path:`
treats both `None` and the empty list as falsy. -/
def print_bridge_solution (path : Option (List Config)) (vmap : VMap) :
    Option (String ⊕ List StepDesc) :=
  match path with
  | none => some (Sum.inl noSolutionMsg)
  | some [] => some (Sum.inl noSolutionMsg)
  | some l => (renderSteps vmap l).map Sum.inr

/-- The spec's description of a correctly rendered step list (§4.4): for
each consecutive pair `(prev, next)` of the path, the trip duration is
`arrival_time_map[next] - arrival_time_map[prev]`, the moved-people set is
the start-side set difference in the direction given by `prev`'s resource
position, and the elapsed time and side listings come from `next`. -/
def StepsOK (vmap : VMap) : List Config → List StepDesc → Prop
  | a :: b :: rest, s :: ss =>
    (∃ tn tp, vlookup vmap b = some tn ∧ vlookup vmap a = some tp ∧
      s.trip = (tn : Int) - (tp : Int) ∧
      s.moved = (if a.umbrella_pos = UmbPos.ustart then
          a.start_side \ b.start_side else b.start_side \ a.start_side) ∧
      (s.towardEnd = true ↔ a.umbrella_pos = UmbPos.ustart) ∧
      s.elapsed = tn ∧ s.startAfter = b.start_side ∧
      s.endAfter = b.end_side) ∧
    StepsOK vmap (b :: rest) ss
  | _ :: _ :: _, [] => False
  | _, ss => ss = []

/-! ## Specification-level definitions

These are phrased from the spec's data model (§3, §4.1, §8): valid moves,
valid paths, path costs, configuration invariants.  They are the yardstick
the solver results are measured against. -/

/-- The spec's configuration invariant: the two sides are disjoint and
cover the full person set. -/
def PartOK (people : Finset Nat) (c : Config) : Prop :=
  c.start_side ∩ c.end_side = ∅ ∧ c.start_side ∪ c.end_side = people

/-- The spec's notion of a single valid move: a nonempty group of at most
two people, all on the side holding the umbrella, whose membership flips
along with the umbrella. -/
def SpecStep (c c2 : Config) : Prop :=
  ∃ g : Finset Nat, g.Nonempty ∧ g.card ≤ 2 ∧ g ⊆ move_from c ∧
    c2 = apply_group c g

/-- The people that moved between two consecutive configurations, read
off the configurations exactly as the reporter does. -/
def moved_set (c c2 : Config) : Finset Nat :=
  if c.umbrella_pos = UmbPos.ustart then c.start_side \ c2.start_side
  else c2.start_side \ c.start_side

/-- The cost of one step of a path: the slowest mover's duration. -/
def step_cost (times : Nat → Nat) (c c2 : Config) : Nat :=
  trip_time times (moved_set c c2)

/-- Total cost of a path: the sum of its step costs. -/
def pathCost (times : Nat → Nat) : List Config → Nat
  | c :: c2 :: rest => step_cost times c c2 + pathCost times (c2 :: rest)
  | _ => 0

/-- `ReachPath people times p c t`: `p` is a path of valid moves from the
initial configuration to `c`, with cumulative time `t`. -/
inductive ReachPath (people : Finset Nat) (times : Nat → Nat) :
    List Config → Config → Nat → Prop where
  | init : ReachPath people times [initial_state people] (initial_state people) 0
  | step {p : List Config} {c : Config} {t w : Nat} {c2 : Config} :
      ReachPath people times p c t → (w, c2) ∈ succs times c →
      ReachPath people times (p ++ [c2]) c2 (t + w)

/-- `o` is a `some` value that is at most `t` (`none` is infinity). -/
def oLE (o : Option Nat) (t : Nat) : Prop :=
  ∃ u, o = some u ∧ u ≤ t

/-- `o` is a `some` value strictly below `t`. -/
def oLT (o : Option Nat) (t : Nat) : Prop :=
  ∃ u, o = some u ∧ u < t

/-- Map refinement: every recorded arrival time can only improve. -/
def VisMono (v w : VMap) : Prop :=
  ∀ c u, vlookup v c = some u → ∃ u2, vlookup w c = some u2 ∧ u2 ≤ u

/-- The priority queue is sorted by cumulative time. -/
def SortedPQ (pq : PQ) : Prop :=
  pq.Pairwise fun a b => a.1 ≤ b.1

/-- All edges out of configuration `c` were relaxed into the final map
`rvis` at base time `v` (for within-limit totals), and `c` is not a goal
configuration. -/
def RelaxedAt (times : Nat → Nat) (limit : Nat) (rvis : VMap) (v : Nat)
    (c : Config) : Prop :=
  c.start_side ≠ ∅ ∧ ∀ w c2, (w, c2) ∈ succs times c → v + w ≤ limit →
    oLE (vlookup rvis c2) (v + w)

/-- What a finished search guarantees about a configuration recorded in
the final arrival map at time `v`: either the returned best time is at
most `v` (in particular for goal configurations), or all its children
were relaxed. -/
def FIN (times : Nat → Nat) (limit : Nat) (best : Option Nat) (rvis : VMap)
    (v : Nat) (c : Config) : Prop :=
  oLE best v ∨ RelaxedAt times limit rvis v c

/-- What a finished search guarantees about a queue/stack entry of time
`t` at configuration `c`: the best result is at most `t`, or the entry is
stale (the final map undercuts it), or its children were relaxed. -/
def RB (times : Nat → Nat) (limit : Nat) (best : Option Nat) (rvis : VMap)
    (t : Nat) (c : Config) : Prop :=
  oLE best t ∨ oLT (vlookup rvis c) t ∨ RelaxedAt times limit rvis t c

/-- Well-formedness of the BFS priority queue relative to the visited
map: every entry is a valid within-limit path whose endpoint's recorded
arrival time is at most the entry's time. -/
def WFpq (people : Finset Nat) (times : Nat → Nat) (limit : Nat)
    (pq : PQ) (vis : VMap) : Prop :=
  ∀ t p, (t, p) ∈ pq → t ≤ limit ∧
    ReachPath people times p (p.getLastD cfg0) t ∧
    oLE (vlookup vis (p.getLastD cfg0)) t

/-- Well-formedness of a visited map: every recorded time is within the
limit and achieved by a valid path. -/
def WFvis (people : Finset Nat) (times : Nat → Nat) (limit : Nat)
    (vis : VMap) : Prop :=
  ∀ c v, vlookup vis c = some v → v ≤ limit ∧
    ∃ p, ReachPath people times p c v

/-- Well-formedness of the DFS stack. -/
def WFstack (people : Finset Nat) (times : Nat → Nat) (limit : Nat)
    (st : DStack) (vis : VMap) : Prop :=
  ∀ t p c, (t, p, c) ∈ st → t ≤ limit ∧ ReachPath people times p c t ∧
    oLE (vlookup vis c) t

/-- Well-formedness of the DFS running optimum
(`min_total_time` / `best_path`). -/
def WFmin (people : Finset Nat) (times : Nat → Nat) (limit : Nat)
    (minT : Option Nat) (best : Option (List Config)) : Prop :=
  (minT = none → best = none) ∧
  ∀ m, minT = some m → m ≤ limit ∧ ∃ p, best = some p ∧
    ReachPath people times p (p.getLastD cfg0) m ∧
    (p.getLastD cfg0).start_side = ∅

/-- Invariant carried through the BFS expansion fold: sortedness and
well-formedness, monotone refinement of the starting map `vis0`,
preservation of the starting queue `rest0`, and provenance of every new
map entry by a queue entry. -/
def ExpandInv (people : Finset Nat) (times : Nat → Nat) (limit : Nat)
    (vis0 : VMap) (rest0 : PQ) (s : PQ × VMap) : Prop :=
  SortedPQ s.1 ∧ WFpq people times limit s.1 s.2 ∧
  WFvis people times limit s.2 ∧ VisMono vis0 s.2 ∧
  (∀ e, e ∈ rest0 → e ∈ s.1) ∧
  (∀ c v, vlookup s.2 c = some v → vlookup vis0 c = some v ∨
    ∃ p2, (v, p2) ∈ s.1 ∧ p2.getLastD cfg0 = c)

/-- Invariant carried through the DFS move-collection fold. -/
def DExpandInv (people : Finset Nat) (times : Nat → Nat) (limit : Nat)
    (vis0 : VMap) (s : DStack × VMap) : Prop :=
  WFstack people times limit s.1 s.2 ∧ WFvis people times limit s.2 ∧
  VisMono vis0 s.2 ∧
  (∀ c v, vlookup s.2 c = some v → vlookup vis0 c = some v ∨
    ∃ p2, (v, p2, c) ∈ s.1)

/-- The conclusions of a terminating BFS run from queue `pq` and map
`vis`, returning `(best, bpath, rvis)`. -/
def BfsPost (people : Finset Nat) (times : Nat → Nat) (limit : Nat)
    (pq : PQ) (vis : VMap) (best : Option Nat)
    (bpath : Option (List Config)) (rvis : VMap) : Prop :=
  VisMono vis rvis ∧
  (∀ t p, (t, p) ∈ pq → RB times limit best rvis t (p.getLastD cfg0)) ∧
  (∀ c v, vlookup rvis c = some v → vlookup vis c = some v ∨
    FIN times limit best rvis v c) ∧
  (∀ t, best = some t → t ≤ limit ∧ ∃ p, bpath = some p ∧
    ReachPath people times p (p.getLastD cfg0) t ∧
    (p.getLastD cfg0).start_side = ∅) ∧
  (best = none → bpath = none) ∧
  WFvis people times limit rvis

/-- The conclusions of a terminating DFS run. -/
def DfsPost (people : Finset Nat) (times : Nat → Nat) (limit : Nat)
    (st : DStack) (vis : VMap) (minT : Option Nat)
    (rmin : Option Nat) (rbest : Option (List Config)) (rvis : VMap) : Prop :=
  VisMono vis rvis ∧
  (∀ m, minT = some m → ∃ m2, rmin = some m2 ∧ m2 ≤ m) ∧
  (∀ t p c, (t, p, c) ∈ st → RB times limit rmin rvis t c) ∧
  (∀ c v, vlookup rvis c = some v → vlookup vis c = some v ∨
    FIN times limit rmin rvis v c) ∧
  WFmin people times limit rmin rbest ∧
  WFvis people times limit rvis

/-! ## Basic lemmas about the data structures -/

theorem vlookup_vupdate_self (m : VMap) (c : Config) (t : Nat) :
    vlookup (vupdate m c t) c = some t := by
  induction m with
  | nil => simp [vupdate, vlookup]
  | cons e m ih =>
    by_cases h : e.1 = c
    · simp [vupdate, h, vlookup]
    · simp [vupdate, h, vlookup, ih]

theorem vlookup_vupdate_ne (m : VMap) {c c2 : Config} (t : Nat)
    (h : c2 ≠ c) : vlookup (vupdate m c t) c2 = vlookup m c2 := by
  induction m with
  | nil => simp [vupdate, vlookup, Ne.symm h]
  | cons e m ih =>
    by_cases he : e.1 = c
    · subst he
      simp [vupdate, vlookup, Ne.symm h]
    · simp [vupdate, he, vlookup, ih]

theorem visMono_refl (m : VMap) : VisMono m m :=
  fun c u h => ⟨u, h, Nat.le_refl u⟩

theorem visMono_trans {a b c : VMap} (h1 : VisMono a b) (h2 : VisMono b c) :
    VisMono a c := by
  intro x u hx
  obtain ⟨u2, hu2, hle⟩ := h1 x u hx
  obtain ⟨u3, hu3, hle2⟩ := h2 x u2 hu2
  exact ⟨u3, hu3, Nat.le_trans hle2 hle⟩

theorem oLE_mono {a b : VMap} {c : Config} {t : Nat} (h : VisMono a b)
    (hle : oLE (vlookup a c) t) : oLE (vlookup b c) t := by
  obtain ⟨u, hu, hut⟩ := hle
  obtain ⟨u2, hu2, hle2⟩ := h c u hu
  exact ⟨u2, hu2, Nat.le_trans hle2 hut⟩

theorem visMono_vupdate {m : VMap} {c : Config} {nt : Nat}
    (h : ∀ v, vlookup m c = some v → nt ≤ v) : VisMono m (vupdate m c nt) := by
  intro x u hx
  by_cases hc : x = c
  · subst hc
    exact ⟨nt, vlookup_vupdate_self m x nt, h u hx⟩
  · exact ⟨u, by rw [vlookup_vupdate_ne m nt hc]; exact hx, Nat.le_refl u⟩

theorem mem_pqPush {pq : PQ} {e x : Nat × List Config} :
    x ∈ pqPush pq e ↔ x = e ∨ x ∈ pq := by
  induction pq with
  | nil => simp [pqPush]
  | cons y ys ih =>
    by_cases h : e.1 < y.1
    · simp only [pqPush, if_pos h]
      exact List.mem_cons
    · simp only [pqPush, if_neg h, List.mem_cons, ih]
      tauto

theorem sortedPQ_push {pq : PQ} {e : Nat × List Config} (h : SortedPQ pq) :
    SortedPQ (pqPush pq e) := by
  induction pq with
  | nil => simp [pqPush, SortedPQ]
  | cons y ys ih =>
    rcases List.pairwise_cons.mp h with ⟨hy, hys⟩
    by_cases hcmp : e.1 < y.1
    · simp only [pqPush, if_pos hcmp]
      refine List.pairwise_cons.mpr ⟨?_, h⟩
      intro z hz
      rcases List.mem_cons.mp hz with rfl | hz2
      · exact Nat.le_of_lt hcmp
      · exact Nat.le_trans (Nat.le_of_lt hcmp) (hy z hz2)
    · simp only [pqPush, if_neg hcmp]
      refine List.pairwise_cons.mpr ⟨?_, ih hys⟩
      intro z hz
      rcases mem_pqPush.mp hz with rfl | hz2
      · exact Nat.le_of_not_lt hcmp
      · exact hy z hz2

theorem sortedPQ_tail {e : Nat × List Config} {pq : PQ}
    (h : SortedPQ (e :: pq)) : SortedPQ pq :=
  (List.pairwise_cons.mp h).2

theorem sortedPQ_head_le {e : Nat × List Config} {pq : PQ}
    (h : SortedPQ (e :: pq)) : ∀ x ∈ pq, e.1 ≤ x.1 :=
  (List.pairwise_cons.mp h).1

/-! ## Lemmas about group enumeration -/

theorem msortList_coe (l : List Nat) :
    Quot.liftOn (l : Multiset Nat) (List.insertionSort (· ≤ ·))
      (fun a b h => List.eq_of_perm_of_sorted
        ((List.perm_insertionSort _ a).trans
          (h.trans (List.perm_insertionSort _ b).symm))
        (List.sorted_insertionSort _ a) (List.sorted_insertionSort _ b)) =
      List.insertionSort (· ≤ ·) l := rfl

theorem mem_sortedSide {s : Finset Nat} {a : Nat} :
    a ∈ sortedSide s ↔ a ∈ s := by
  rcases s with ⟨m, hm⟩
  revert hm
  induction m using Quotient.inductionOn with
  | h l =>
    intro hm
    show a ∈ List.insertionSort (· ≤ ·) l ↔ _
    rw [(List.perm_insertionSort (· ≤ ·) l).mem_iff]
    simp [Finset.mem_mk]

theorem nodup_sortedSide (s : Finset Nat) : (sortedSide s).Nodup := by
  rcases s with ⟨m, hm⟩
  revert hm
  induction m using Quotient.inductionOn with
  | h l =>
    intro hm
    show (List.insertionSort (· ≤ ·) l).Nodup
    rw [(List.perm_insertionSort (· ≤ ·) l).nodup_iff]
    simpa using hm

theorem pairGroups_sound {l : List Nat} (hnd : l.Nodup) {g : Finset Nat}
    (hg : g ∈ pairGroups l) :
    ∃ a b, a ∈ l ∧ b ∈ l ∧ a ≠ b ∧ g = {a, b} := by
  induction l with
  | nil => simp [pairGroups] at hg
  | cons a rest ih =>
    rcases List.nodup_cons.mp hnd with ⟨hna, hnrest⟩
    rcases List.mem_append.mp hg with h | h
    · rcases List.mem_map.mp h with ⟨b, hb, rfl⟩
      refine ⟨a, b, List.mem_cons_self a rest, List.mem_cons_of_mem a hb, ?_, rfl⟩
      intro hab
      exact hna (hab ▸ hb)
    · rcases ih hnrest h with ⟨x, y, hx, hy, hxy, rfl⟩
      exact ⟨x, y, List.mem_cons_of_mem a hx, List.mem_cons_of_mem a hy, hxy, rfl⟩

theorem mem_pairGroups {l : List Nat} {a b : Nat} (ha : a ∈ l) (hb : b ∈ l)
    (hab : a ≠ b) : ({a, b} : Finset Nat) ∈ pairGroups l := by
  induction l with
  | nil => cases ha
  | cons x rest ih =>
    rcases List.mem_cons.mp ha with rfl | ha2
    · rcases List.mem_cons.mp hb with rfl | hb2
      · exact absurd rfl hab
      · exact List.mem_append.mpr (Or.inl (List.mem_map.mpr ⟨b, hb2, rfl⟩))
    · rcases List.mem_cons.mp hb with rfl | hb2
      · exact List.mem_append.mpr (Or.inl (List.mem_map.mpr
          ⟨a, ha2, Finset.pair_comm _ a⟩))
      · exact List.mem_append.mpr (Or.inr (ih ha2 hb2))

theorem groupsOf_sound {c : Config} {g : Finset Nat} (hg : g ∈ groupsOf c) :
    g.Nonempty ∧ g.card ≤ 2 ∧ g ⊆ move_from c := by
  rcases List.mem_append.mp hg with h | h
  · rcases List.mem_map.mp h with ⟨a, ha, rfl⟩
    have ha2 : a ∈ move_from c := mem_sortedSide.mp ha
    exact ⟨⟨a, Finset.mem_singleton_self a⟩, by simp,
      Finset.singleton_subset_iff.mpr ha2⟩
  · rcases pairGroups_sound (nodup_sortedSide _) h with ⟨a, b, ha, hb, hab, rfl⟩
    have ha2 : a ∈ move_from c := mem_sortedSide.mp ha
    have hb2 : b ∈ move_from c := mem_sortedSide.mp hb
    refine ⟨⟨a, by simp⟩, ?_, ?_⟩
    · calc ({a, b} : Finset Nat).card ≤ ({b} : Finset Nat).card + 1 :=
            Finset.card_insert_le a {b}
        _ ≤ 2 := by simp
    · intro x hx
      rcases Finset.mem_insert.mp hx with rfl | hx2
      · exact ha2
      · rwa [Finset.mem_singleton.mp hx2]

theorem groupsOf_complete {c : Config} {g : Finset Nat} (h1 : g.Nonempty)
    (h2 : g.card ≤ 2) (h3 : g ⊆ move_from c) : g ∈ groupsOf c := by
  have hc1 : 1 ≤ g.card := Finset.card_pos.mpr h1
  have hcases : g.card = 1 ∨ g.card = 2 := by omega
  rcases hcases with h | h
  · rcases Finset.card_eq_one.mp h with ⟨a, rfl⟩
    refine List.mem_append.mpr (Or.inl (List.mem_map.mpr ⟨a, ?_, rfl⟩))
    exact mem_sortedSide.mpr (h3 (Finset.mem_singleton_self a))
  · rcases Finset.card_eq_two.mp h with ⟨a, b, hab, rfl⟩
    refine List.mem_append.mpr (Or.inr (mem_pairGroups ?_ ?_ hab))
    · exact mem_sortedSide.mpr (h3 (by simp))
    · exact mem_sortedSide.mpr (h3 (by simp))

theorem mem_succs {times : Nat → Nat} {c : Config} {w : Nat} {c2 : Config} :
    (w, c2) ∈ succs times c ↔
      ∃ g ∈ groupsOf c, w = trip_time times g ∧ c2 = apply_group c g := by
  constructor
  · intro h
    rcases List.mem_map.mp h with ⟨g, hg, heq⟩
    exact ⟨g, hg, congrArg Prod.fst heq.symm, congrArg Prod.snd heq.symm⟩
  · rintro ⟨g, hg, rfl, rfl⟩
    exact List.mem_map.mpr ⟨g, hg, rfl⟩

/-! ## Configuration invariants -/

theorem partOK_initial (people : Finset Nat) :
    PartOK people (initial_state people) := by
  constructor <;> simp [initial_state]

theorem partOK_disj {people : Finset Nat} {c : Config} (h : PartOK people c)
    {x : Nat} (hx : x ∈ c.start_side) (hy : x ∈ c.end_side) : False :=
  Finset.eq_empty_iff_forall_not_mem.mp h.1 x (Finset.mem_inter.mpr ⟨hx, hy⟩)

theorem apply_group_ustart {c : Config} (g : Finset Nat)
    (hu : c.umbrella_pos = UmbPos.ustart) :
    apply_group c g = ⟨c.start_side \ g, c.end_side ∪ g, UmbPos.uend⟩ := by
  simp [apply_group, move_to_pos, hu]

theorem apply_group_uend {c : Config} (g : Finset Nat)
    (hu : ¬c.umbrella_pos = UmbPos.ustart) :
    apply_group c g = ⟨c.start_side ∪ g, c.end_side \ g, UmbPos.ustart⟩ := by
  simp [apply_group, move_to_pos, hu]

theorem partOK_apply {people : Finset Nat} {c : Config} {g : Finset Nat}
    (h : PartOK people c) (hg : g ⊆ move_from c) :
    PartOK people (apply_group c g) := by
  by_cases hu : c.umbrella_pos = UmbPos.ustart
  · have hgs : ∀ x, x ∈ g → x ∈ c.start_side := by
      intro x hx
      have := hg hx
      rwa [move_from, if_pos hu] at this
    rw [apply_group_ustart g hu]
    constructor
    · apply Finset.eq_empty_iff_forall_not_mem.mpr
      intro x hx
      simp only [Finset.mem_inter, Finset.mem_sdiff, Finset.mem_union] at hx
      rcases hx with ⟨⟨hxs, hxg⟩, hxe | hxg2⟩
      · exact partOK_disj h hxs hxe
      · exact hxg hxg2
    · rw [← h.2]
      ext x
      simp only [Finset.mem_union, Finset.mem_sdiff]
      constructor
      · rintro (⟨hx, _⟩ | hx | hx)
        · exact Or.inl hx
        · exact Or.inr hx
        · exact Or.inl (hgs x hx)
      · rintro (hx | hx)
        · by_cases hxg : x ∈ g
          · exact Or.inr (Or.inr hxg)
          · exact Or.inl ⟨hx, hxg⟩
        · exact Or.inr (Or.inl hx)
  · have hge : ∀ x, x ∈ g → x ∈ c.end_side := by
      intro x hx
      have := hg hx
      rwa [move_from, if_neg hu] at this
    rw [apply_group_uend g hu]
    constructor
    · apply Finset.eq_empty_iff_forall_not_mem.mpr
      intro x hx
      simp only [Finset.mem_inter, Finset.mem_sdiff, Finset.mem_union] at hx
      rcases hx with ⟨hxs | hxg, hxe, hxg2⟩
      · exact partOK_disj h hxs hxe
      · exact hxg2 hxg
    · rw [← h.2]
      ext x
      simp only [Finset.mem_union, Finset.mem_sdiff]
      constructor
      · rintro ((hx | hx) | ⟨hx, _⟩)
        · exact Or.inl hx
        · exact Or.inr (hge x hx)
        · exact Or.inr hx
      · rintro (hx | hx)
        · exact Or.inl (Or.inl hx)
        · by_cases hxg : x ∈ g
          · exact Or.inl (Or.inr hxg)
          · exact Or.inr ⟨hx, hxg⟩

theorem moved_set_apply {people : Finset Nat} {c : Config} {g : Finset Nat}
    (h : PartOK people c) (hg : g ⊆ move_from c) :
    moved_set c (apply_group c g) = g := by
  by_cases hu : c.umbrella_pos = UmbPos.ustart
  · have hgs : ∀ x, x ∈ g → x ∈ c.start_side := by
      intro x hx
      have := hg hx
      rwa [move_from, if_pos hu] at this
    rw [moved_set, if_pos hu, apply_group_ustart g hu]
    ext x
    simp only [Finset.mem_sdiff]
    constructor
    · rintro ⟨hxs, hx2⟩
      by_contra hxg
      exact hx2 ⟨hxs, hxg⟩
    · intro hx
      exact ⟨hgs x hx, fun h2 => h2.2 hx⟩
  · have hge : ∀ x, x ∈ g → x ∈ c.end_side := by
      intro x hx
      have := hg hx
      rwa [move_from, if_neg hu] at this
    rw [moved_set, if_neg hu, apply_group_uend g hu]
    ext x
    simp only [Finset.mem_sdiff, Finset.mem_union]
    constructor
    · rintro ⟨hx | hx, hxs⟩
      · exact absurd hx hxs
      · exact hx
    · intro hx
      exact ⟨Or.inr hx, fun hxs => partOK_disj h hxs (hge x hx)⟩

/-! ## Path lemmas -/

theorem lastD_concat (l : List Config) (a d : Config) :
    (l ++ [a]).getLastD d = a := by
  induction l generalizing d with
  | nil => rfl
  | cons x xs ih =>
    rw [List.cons_append, List.getLastD_cons]
    exact ih x

theorem lastD_cons_cons (x y : Config) (rest : List Config) (d : Config) :
    (x :: y :: rest).getLastD d = (y :: rest).getLastD d := by
  simp [List.getLastD_cons]

theorem lastD_mem (l : List Config) (d : Config) (h : l ≠ []) :
    l.getLastD d ∈ l := by
  induction l generalizing d with
  | nil => exact absurd rfl h
  | cons x xs ih =>
    rw [List.getLastD_cons]
    rcases eq_or_ne xs [] with rfl | hne
    · simp [List.getLastD]
    · exact List.mem_cons_of_mem x (ih x hne)

theorem head_append_left (l l2 : List Config) (h : l ≠ []) :
    (l ++ l2).head? = l.head? := by
  cases l with
  | nil => exact absurd rfl h
  | cons x xs => rfl

theorem chain_concat {R : Config → Config → Prop} {b : Config} :
    ∀ l : List Config, l ≠ [] → List.Chain' R l →
      R (l.getLastD cfg0) b → List.Chain' R (l ++ [b]) := by
  intro l
  induction l with
  | nil => intro h; exact absurd rfl h
  | cons x xs ih =>
    intro _ hch hr
    cases xs with
    | nil =>
      refine List.chain'_cons.mpr ⟨?_, by simp⟩
      rw [List.getLastD_cons] at hr
      exact hr
    | cons y ys =>
      rw [List.cons_append]
      refine List.chain'_cons.mpr ⟨(List.chain'_cons.mp hch).1, ?_⟩
      refine ih (by simp) (List.chain'_cons.mp hch).2 ?_
      rwa [lastD_cons_cons] at hr

theorem ReachPath.ne_nil {people : Finset Nat} {times : Nat → Nat}
    {p : List Config} {c : Config} {t : Nat}
    (h : ReachPath people times p c t) : p ≠ [] := by
  induction h with
  | init => simp
  | step h hm ih => simp

theorem ReachPath.lastD {people : Finset Nat} {times : Nat → Nat}
    {p : List Config} {c : Config} {t : Nat}
    (h : ReachPath people times p c t) : p.getLastD cfg0 = c := by
  induction h with
  | init => rfl
  | step h hm ih => exact lastD_concat _ _ _

theorem ReachPath.part {people : Finset Nat} {times : Nat → Nat}
    {p : List Config} {c : Config} {t : Nat}
    (h : ReachPath people times p c t) : ∀ x ∈ p, PartOK people x := by
  induction h with
  | init =>
    intro x hx
    rw [List.mem_singleton] at hx
    subst hx
    exact partOK_initial people
  | @step p c t w c2 h hm ih =>
    intro x hx
    rcases List.mem_append.mp hx with hx | hx
    · exact ih x hx
    · rw [List.mem_singleton] at hx
      subst hx
      rcases mem_succs.mp hm with ⟨g, hg, hw, rfl⟩
      have hc : c ∈ p := by
        have := lastD_mem p cfg0 h.ne_nil
        rwa [h.lastD] at this
      exact partOK_apply (ih c hc) (groupsOf_sound hg).2.2

theorem ReachPath.part_last {people : Finset Nat} {times : Nat → Nat}
    {p : List Config} {c : Config} {t : Nat}
    (h : ReachPath people times p c t) : PartOK people c := by
  refine h.part c ?_
  have := lastD_mem p cfg0 h.ne_nil
  rwa [h.lastD] at this

theorem pathCost_concat (times : Nat → Nat) (p : List Config) (c2 : Config)
    (h : p ≠ []) : pathCost times (p ++ [c2]) =
      pathCost times p + step_cost times (p.getLastD cfg0) c2 := by
  induction p with
  | nil => exact absurd rfl h
  | cons x xs ih =>
    cases xs with
    | nil =>
      show step_cost times x c2 + pathCost times [c2] =
        pathCost times [x] + step_cost times ((x :: ([] : List Config)).getLastD cfg0) c2
      show step_cost times x c2 + 0 = 0 + _
      rw [Nat.zero_add, Nat.add_zero, List.getLastD_cons]
      rfl
    | cons y ys =>
      have hih := ih (by simp)
      show step_cost times x y + pathCost times ((y :: ys) ++ [c2]) =
        step_cost times x y + pathCost times (y :: ys) + _
      rw [hih, lastD_cons_cons, Nat.add_assoc]

theorem ReachPath.cost {people : Finset Nat} {times : Nat → Nat}
    {p : List Config} {c : Config} {t : Nat}
    (h : ReachPath people times p c t) : pathCost times p = t := by
  induction h with
  | init => rfl
  | @step p c t w c2 h hm ih =>
    rcases mem_succs.mp hm with ⟨g, hg, rfl, rfl⟩
    rw [pathCost_concat times _ _ h.ne_nil, ih, h.lastD, step_cost,
      moved_set_apply h.part_last (groupsOf_sound hg).2.2]

theorem ReachPath.chain {people : Finset Nat} {times : Nat → Nat}
    {p : List Config} {c : Config} {t : Nat}
    (h : ReachPath people times p c t) : List.Chain' SpecStep p := by
  induction h with
  | init => simp
  | @step p c t w c2 h hm ih =>
    rcases mem_succs.mp hm with ⟨g, hg, hw, rfl⟩
    refine chain_concat p h.ne_nil ih ?_
    rw [h.lastD]
    rcases groupsOf_sound hg with ⟨h1, h2, h3⟩
    exact ⟨g, h1, h2, h3, rfl⟩

theorem ReachPath.head {people : Finset Nat} {times : Nat → Nat}
    {p : List Config} {c : Config} {t : Nat}
    (h : ReachPath people times p c t) :
    p.head? = some (initial_state people) := by
  induction h with
  | init => rfl
  | step h hm ih => rw [head_append_left _ _ h.ne_nil, ih]

/-! ## Option-comparison helpers -/

theorem staleB_true {t : Nat} {o : Option Nat} (h : staleB t o = true) :
    ∃ v, o = some v ∧ v < t := by
  cases o with
  | none => simp [staleB] at h
  | some v =>
    refine ⟨v, rfl, ?_⟩
    simpa [staleB] using h

theorem better_some {nt v : Nat} {o : Option Nat} (h : better nt o = true)
    (hv : o = some v) : nt < v := by
  subst hv
  simpa [better] using h

theorem not_better {nt : Nat} {o : Option Nat} (h : ¬better nt o = true) :
    ∃ v, o = some v ∧ v ≤ nt := by
  cases o with
  | none => simp [better] at h
  | some v =>
    refine ⟨v, rfl, ?_⟩
    simp [better] at h
    exact h

/-! ## The BFS expansion fold preserves the invariant and relaxes all
within-limit children -/

theorem bfsRelax_step {people : Finset Nat} {times : Nat → Nat}
    {limit t : Nat} {path : List Config} {cfg : Config} {vis0 : VMap}
    {rest0 : PQ} (hre : ReachPath people times path cfg t)
    {s : PQ × VMap} {g : Finset Nat} (hg : g ∈ groupsOf cfg)
    (hinv : ExpandInv people times limit vis0 rest0 s) :
    ExpandInv people times limit vis0 rest0 (bfsRelax times limit t path cfg s g) ∧
    VisMono s.2 (bfsRelax times limit t path cfg s g).2 ∧
    (∀ e, e ∈ s.1 → e ∈ (bfsRelax times limit t path cfg s g).1) ∧
    (t + trip_time times g ≤ limit →
      oLE (vlookup (bfsRelax times limit t path cfg s g).2 (apply_group cfg g))
        (t + trip_time times g)) := by
  obtain ⟨hsort, hwq, hwv, hmono, hrest, hprov⟩ := hinv
  by_cases hlimit : limit < t + trip_time times g
  · rw [bfsRelax, if_pos hlimit]
    exact ⟨⟨hsort, hwq, hwv, hmono, hrest, hprov⟩, visMono_refl s.2,
      fun e he => he, fun hle => absurd hle (Nat.not_le_of_lt hlimit)⟩
  · rw [bfsRelax, if_neg hlimit]
    by_cases hbet : better (t + trip_time times g)
        (vlookup s.2 (apply_group cfg g)) = true
    · rw [if_pos hbet]
      have hntlim : t + trip_time times g ≤ limit := Nat.le_of_not_lt hlimit
      have hstep : ReachPath people times (path ++ [apply_group cfg g])
          (apply_group cfg g) (t + trip_time times g) :=
        hre.step (mem_succs.mpr ⟨g, hg, rfl, rfl⟩)
      have hbet2 : ∀ v, vlookup s.2 (apply_group cfg g) = some v →
          t + trip_time times g < v := fun v hv => better_some hbet hv
      refine ⟨⟨?_, ?_, ?_, ?_, ?_, ?_⟩, ?_, ?_, ?_⟩
      · exact sortedPQ_push hsort
      · intro t2 p2 hmem
        rcases mem_pqPush.mp hmem with heq | hmem2
        · injection heq with h1 h2
          subst h1
          subst h2
          refine ⟨hntlim, ?_, ?_⟩
          · rw [lastD_concat]
            exact hstep
          · rw [lastD_concat, vlookup_vupdate_self]
            exact ⟨_, rfl, Nat.le_refl _⟩
        · obtain ⟨h1, h2, h3⟩ := hwq t2 p2 hmem2
          refine ⟨h1, h2, ?_⟩
          by_cases hc : p2.getLastD cfg0 = apply_group cfg g
          · rw [hc, vlookup_vupdate_self]
            obtain ⟨u, hu, hut⟩ := h3
            rw [hc] at hu
            exact ⟨_, rfl, Nat.le_trans (Nat.le_of_lt (hbet2 u hu)) hut⟩
          · rw [vlookup_vupdate_ne _ _ hc]
            exact h3
      · intro c v hv
        by_cases hc : c = apply_group cfg g
        · subst hc
          rw [vlookup_vupdate_self] at hv
          injection hv with hv
          subst hv
          exact ⟨hntlim, _, hstep⟩
        · rw [vlookup_vupdate_ne _ _ hc] at hv
          exact hwv c v hv
      · exact visMono_trans hmono
          (visMono_vupdate fun v hv => Nat.le_of_lt (hbet2 v hv))
      · intro e he
        exact mem_pqPush.mpr (Or.inr (hrest e he))
      · intro c v hv
        by_cases hc : c = apply_group cfg g
        · subst hc
          rw [vlookup_vupdate_self] at hv
          injection hv with hv
          subst hv
          exact Or.inr ⟨path ++ [apply_group cfg g],
            mem_pqPush.mpr (Or.inl rfl), lastD_concat _ _ _⟩
        · rw [vlookup_vupdate_ne _ _ hc] at hv
          rcases hprov c v hv with h | ⟨p2, hp2, hl2⟩
          · exact Or.inl h
          · exact Or.inr ⟨p2, mem_pqPush.mpr (Or.inr hp2), hl2⟩
      · exact visMono_vupdate fun v hv => Nat.le_of_lt (hbet2 v hv)
      · intro e he
        exact mem_pqPush.mpr (Or.inr he)
      · intro _
        rw [vlookup_vupdate_self]
        exact ⟨_, rfl, Nat.le_refl _⟩
    · rw [if_neg hbet]
      refine ⟨⟨hsort, hwq, hwv, hmono, hrest, hprov⟩, visMono_refl _,
        fun e he => he, ?_⟩
      intro _
      obtain ⟨v, hv, hvle⟩ := not_better hbet
      exact ⟨v, hv, hvle⟩

theorem bfsExpand_inv {people : Finset Nat} {times : Nat → Nat}
    {limit t : Nat} {path : List Config} {cfg : Config}
    (hre : ReachPath people times path cfg t) :
    ∀ (gs : List (Finset Nat)) (s : PQ × VMap) (vis0 : VMap) (rest0 : PQ),
      (∀ g ∈ gs, g ∈ groupsOf cfg) →
      ExpandInv people times limit vis0 rest0 s →
      ExpandInv people times limit vis0 rest0
          (gs.foldl (bfsRelax times limit t path cfg) s) ∧
        VisMono s.2 (gs.foldl (bfsRelax times limit t path cfg) s).2 ∧
        (∀ g ∈ gs, t + trip_time times g ≤ limit →
          oLE (vlookup (gs.foldl (bfsRelax times limit t path cfg) s).2
            (apply_group cfg g)) (t + trip_time times g)) := by
  intro gs
  induction gs with
  | nil =>
    intro s vis0 rest0 _ hinv
    exact ⟨hinv, visMono_refl _, by simp⟩
  | cons g gs ih =>
    intro s vis0 rest0 hsub hinv
    obtain ⟨hinv2, hm2, _, hrel2⟩ :=
      bfsRelax_step hre (hsub g (List.mem_cons_self g gs)) hinv
    obtain ⟨hinv3, hm3, hrel3⟩ :=
      ih (bfsRelax times limit t path cfg s g) vis0 rest0
        (fun x hx => hsub x (List.mem_cons_of_mem g hx)) hinv2
    rw [List.foldl_cons]
    refine ⟨hinv3, visMono_trans hm2 hm3, ?_⟩
    intro g2 hg2 hle
    rcases List.mem_cons.mp hg2 with rfl | hg3
    · exact oLE_mono hm3 (hrel2 hle)
    · exact hrel3 g2 hg3 hle

/-! ## The main BFS loop theorem -/

theorem bfsLoop_post (people : Finset Nat) (times : Nat → Nat) (limit : Nat) :
    ∀ (fuel : Nat) (pq : PQ) (vis : VMap) (best : Option Nat)
      (bpath : Option (List Config)) (rvis : VMap),
      SortedPQ pq → WFpq people times limit pq vis →
      WFvis people times limit vis →
      bfsLoop times limit fuel pq vis = some (best, bpath, rvis) →
      BfsPost people times limit pq vis best bpath rvis := by
  intro fuel
  induction fuel with
  | zero =>
    intro pq vis best bpath rvis _ _ _ hrun
    simp [bfsLoop] at hrun
  | succ n ih =>
    intro pq vis best bpath rvis hsort hwq hwv hrun
    cases pq with
    | nil =>
      rw [bfsLoop] at hrun
      injection hrun with h
      injection h with h1 h
      injection h with h2 h3
      subst h1
      subst h2
      subst h3
      refine ⟨visMono_refl vis, ?_, fun c v hv => Or.inl hv, ?_, fun _ => rfl, hwv⟩
      · intro t p hmem
        exact absurd hmem (List.not_mem_nil _)
      · intro t ht
        cases ht
    | cons entry rest =>
      obtain ⟨t, path⟩ := entry
      rw [bfsLoop] at hrun
      obtain ⟨htlim, hreach, hpople⟩ := hwq t path (List.mem_cons_self _ _)
      by_cases hgoal : (path.getLastD cfg0).start_side = ∅
      · rw [if_pos hgoal, if_pos htlim] at hrun
        injection hrun with h
        injection h with h1 h
        injection h with h2 h3
        subst h1
        subst h2
        subst h3
        refine ⟨visMono_refl vis, ?_, fun c v hv => Or.inl hv, ?_, ?_, hwv⟩
        · intro t2 p2 hmem
          rcases List.mem_cons.mp hmem with heq | hmem2
          · injection heq with h1 h2
            subst h1
            exact Or.inl ⟨_, rfl, Nat.le_refl _⟩
          · exact Or.inl ⟨_, rfl, sortedPQ_head_le hsort _ hmem2⟩
        · intro t2 h2
          injection h2 with h2
          subst h2
          exact ⟨htlim, path, rfl, hreach, hgoal⟩
        · intro h
          cases h
      · rw [if_neg hgoal] at hrun
        by_cases hstale : staleB t (vlookup vis (path.getLastD cfg0)) = true
        · rw [if_pos hstale] at hrun
          obtain ⟨hm, hrb, hd, hsound, hnone, hwv2⟩ :=
            ih rest vis best bpath rvis (sortedPQ_tail hsort)
              (fun t2 p2 h2 => hwq t2 p2 (List.mem_cons_of_mem _ h2)) hwv hrun
          refine ⟨hm, ?_, hd, hsound, hnone, hwv2⟩
          intro t2 p2 hmem
          rcases List.mem_cons.mp hmem with heq | hmem2
          · injection heq with h1 h2
            subst h1
            subst h2
            obtain ⟨v, hv, hvt⟩ := staleB_true hstale
            obtain ⟨u, hu, huv⟩ := hm _ v hv
            exact Or.inr (Or.inl ⟨u, hu, Nat.lt_of_le_of_lt huv hvt⟩)
          · exact hrb t2 p2 hmem2
        · rw [if_neg hstale] at hrun
          simp only [bfsExpand] at hrun
          have hinv0 : ExpandInv people times limit vis rest (rest, vis) :=
            ⟨sortedPQ_tail hsort,
             fun t2 p2 h2 => hwq t2 p2 (List.mem_cons_of_mem _ h2), hwv,
             visMono_refl vis, fun e he => he, fun c v hv => Or.inl hv⟩
          obtain ⟨⟨hsort2, hwq2, hwv2, hmono2, hrest2, hprov2⟩, hmonoS, hrelax⟩ :=
            bfsExpand_inv hreach (groupsOf (path.getLastD cfg0)) (rest, vis)
              vis rest (fun g hg => hg) hinv0
          obtain ⟨hm, hrb, hd, hsound, hnone, hwvr⟩ :=
            ih _ _ best bpath rvis hsort2 hwq2 hwv2 hrun
          refine ⟨visMono_trans hmono2 hm, ?_, ?_, hsound, hnone, hwvr⟩
          · intro t2 p2 hmem
            rcases List.mem_cons.mp hmem with heq | hmem2
            · injection heq with h1 h2
              subst h1
              subst h2
              refine Or.inr (Or.inr ⟨hgoal, ?_⟩)
              intro w c2 hwc hle
              rcases mem_succs.mp hwc with ⟨g, hg, rfl, rfl⟩
              exact oLE_mono hm (hrelax g hg hle)
            · exact hrb t2 p2 (hrest2 _ hmem2)
          · intro c v hv
            rcases hd c v hv with hveq | hfin
            · rcases hprov2 c v hveq with hvis | ⟨p2, hp2, hl2⟩
              · exact Or.inl hvis
              · have hrb2 := hrb v p2 hp2
                rw [hl2] at hrb2
                rcases hrb2 with h | h | h
                · exact Or.inr (Or.inl h)
                · obtain ⟨u, hu, huv⟩ := h
                  rw [hv] at hu
                  injection hu with hu
                  omega
                · exact Or.inr (Or.inr h)
            · exact Or.inr hfin

/-! ## From the loop post-condition to optimality -/

theorem pathLift (people : Finset Nat) (times : Nat → Nat) (limit : Nat)
    (best : Option Nat) (rvis : VMap)
    (hFIN : ∀ c v, vlookup rvis c = some v → FIN times limit best rvis v c)
    (hinit : vlookup rvis (initial_state people) = some 0) :
    ∀ {p : List Config} {c : Config} {t : Nat},
      ReachPath people times p c t → t ≤ limit →
      oLE best t ∨ oLE (vlookup rvis c) t := by
  intro p c t h
  induction h with
  | init =>
    intro _
    exact Or.inr ⟨0, hinit, Nat.le_refl 0⟩
  | @step p c t w c2 h hm ih =>
    intro hlim
    have ht : t ≤ limit := Nat.le_trans (Nat.le_add_right t w) hlim
    rcases ih ht with ⟨b, hb1, hb2⟩ | ⟨u, hu, hut⟩
    · exact Or.inl ⟨b, hb1, Nat.le_trans hb2 (Nat.le_add_right t w)⟩
    · rcases hFIN c u hu with ⟨b, hb1, hb2⟩ | ⟨hne, hrel⟩
      · exact Or.inl ⟨b, hb1, Nat.le_trans hb2
          (Nat.le_trans hut (Nat.le_add_right t w))⟩
      · have huw : u + w ≤ limit :=
          Nat.le_trans (Nat.add_le_add_right hut w) hlim
        obtain ⟨u2, hu2, hu2le⟩ := hrel w c2 hm huw
        exact Or.inr ⟨u2, hu2, Nat.le_trans hu2le (Nat.add_le_add_right hut w)⟩

theorem wfpq_initial (people : Finset Nat) (times : Nat → Nat) (limit : Nat) :
    WFpq people times limit [(0, [initial_state people])]
      [(initial_state people, 0)] := by
  intro t p hmem
  rw [List.mem_singleton] at hmem
  injection hmem with h1 h2
  subst h1
  subst h2
  exact ⟨Nat.zero_le limit, ReachPath.init, ⟨0, by simp [vlookup], Nat.le_refl 0⟩⟩

theorem wfvis_initial (people : Finset Nat) (times : Nat → Nat) (limit : Nat) :
    WFvis people times limit [(initial_state people, 0)] := by
  intro c v hv
  by_cases h : initial_state people = c
  · subst h
    simp [vlookup] at hv
    subst hv
    exact ⟨Nat.zero_le limit, [initial_state people], ReachPath.init⟩
  · simp [vlookup, h] at hv

/-- All the facts a terminating BFS run provides: soundness of the
returned triple, and (via the relaxation invariant) that the returned
best time undercuts every within-limit solution path. -/
theorem bfs_run_facts {people : Finset Nat} {times : Nat → Nat}
    {limit fuel : Nat} {best : Option Nat} {bpath : Option (List Config)}
    {rvis : VMap}
    (hrun : solve_bridge_problem_bfs people times limit fuel =
      some (best, bpath, rvis)) :
    (∀ t, best = some t → t ≤ limit ∧ ∃ p, bpath = some p ∧
      ReachPath people times p (p.getLastD cfg0) t ∧
      (p.getLastD cfg0).start_side = ∅) ∧
    (best = none → bpath = none) ∧
    WFvis people times limit rvis ∧
    (∀ p c W, ReachPath people times p c W → c.start_side = ∅ →
      W ≤ limit → ∃ b, best = some b ∧ b ≤ W) ∧
    vlookup rvis (initial_state people) = some 0 := by
  rw [solve_bridge_problem_bfs] at hrun
  obtain ⟨hm, hrb, hd, hsound, hnone, hwvr⟩ :=
    bfsLoop_post people times limit fuel _ _ best bpath rvis
      (List.pairwise_singleton _ _) (wfpq_initial people times limit)
      (wfvis_initial people times limit) hrun
  have hinit : vlookup rvis (initial_state people) = some 0 := by
    obtain ⟨u, hu, hule⟩ := hm (initial_state people) 0 (by simp [vlookup])
    rw [Nat.le_zero] at hule
    subst hule
    exact hu
  have hFIN : ∀ c v, vlookup rvis c = some v →
      FIN times limit best rvis v c := by
    intro c v hv
    rcases hd c v hv with hv0 | hfin
    · have hc : initial_state people = c ∧ 0 = v := by
        by_cases h : initial_state people = c
        · subst h
          simp [vlookup] at hv0
          exact ⟨rfl, hv0⟩
        · simp [vlookup, h] at hv0
      obtain ⟨rfl, rfl⟩ := hc
      have hrb0 := hrb 0 [initial_state people] (List.mem_singleton_self _)
      rcases hrb0 with hb | hlt | hrel
      · exact Or.inl hb
      · obtain ⟨u, _, hu⟩ := hlt
        omega
      · exact Or.inr hrel
    · exact hfin
  refine ⟨hsound, hnone, hwvr, ?_, hinit⟩
  intro p c W hre hgoal hW
  rcases pathLift people times limit best rvis hFIN hinit hre hW with
    ⟨b, hb1, hb2⟩ | ⟨u, hu, huW⟩
  · exact ⟨b, hb1, hb2⟩
  · rcases hFIN c u hu with ⟨b, hb1, hb2⟩ | ⟨hne, _⟩
    · exact ⟨b, hb1, Nat.le_trans hb2 huW⟩
    · exact absurd hgoal hne

/-! ## DFS stack operations -/

theorem mem_insDesc {e x : Nat × List Config × Config} {l : DStack} :
    x ∈ insDesc e l ↔ x = e ∨ x ∈ l := by
  induction l with
  | nil => simp [insDesc]
  | cons y ys ih =>
    by_cases h : y.1 < e.1
    · simp only [insDesc, if_pos h]
      exact List.mem_cons
    · simp only [insDesc, if_neg h, List.mem_cons, ih]
      tauto

theorem mem_sortDesc {x : Nat × List Config × Config} {l : DStack} :
    x ∈ sortDesc l ↔ x ∈ l := by
  induction l with
  | nil => simp [sortDesc]
  | cons y ys ih =>
    show x ∈ insDesc y (sortDesc ys) ↔ _
    rw [mem_insDesc, List.mem_cons, ih]

theorem mem_pushAll {x : Nat × List Config × Config} :
    ∀ l st : DStack, x ∈ pushAll l st ↔ x ∈ l ∨ x ∈ st := by
  intro l
  induction l with
  | nil =>
    intro st
    simp [pushAll]
  | cons y ys ih =>
    intro st
    show x ∈ pushAll ys (y :: st) ↔ _
    rw [ih (y :: st)]
    simp only [List.mem_cons]
    tauto

/-! ## The DFS move-collection fold -/

theorem dfsRelax_step {people : Finset Nat} {times : Nat → Nat}
    {limit t : Nat} {path : List Config} {cfg : Config} {vis0 : VMap}
    (hre : ReachPath people times path cfg t)
    {s : DStack × VMap} {g : Finset Nat} (hg : g ∈ groupsOf cfg)
    (hinv : DExpandInv people times limit vis0 s) :
    DExpandInv people times limit vis0 (dfsRelax times limit t path cfg s g) ∧
    VisMono s.2 (dfsRelax times limit t path cfg s g).2 ∧
    (∀ e, e ∈ s.1 → e ∈ (dfsRelax times limit t path cfg s g).1) ∧
    (t + trip_time times g ≤ limit →
      oLE (vlookup (dfsRelax times limit t path cfg s g).2 (apply_group cfg g))
        (t + trip_time times g)) := by
  obtain ⟨hws, hwv, hmono, hprov⟩ := hinv
  by_cases hlimit : limit < t + trip_time times g
  · rw [dfsRelax, if_pos hlimit]
    exact ⟨⟨hws, hwv, hmono, hprov⟩, visMono_refl s.2, fun e he => he,
      fun hle => absurd hle (Nat.not_le_of_lt hlimit)⟩
  · rw [dfsRelax, if_neg hlimit]
    by_cases hbet : better (t + trip_time times g)
        (vlookup s.2 (apply_group cfg g)) = true
    · rw [if_pos hbet]
      have hntlim : t + trip_time times g ≤ limit := Nat.le_of_not_lt hlimit
      have hstep : ReachPath people times (path ++ [apply_group cfg g])
          (apply_group cfg g) (t + trip_time times g) :=
        hre.step (mem_succs.mpr ⟨g, hg, rfl, rfl⟩)
      have hbet2 : ∀ v, vlookup s.2 (apply_group cfg g) = some v →
          t + trip_time times g < v := fun v hv => better_some hbet hv
      refine ⟨⟨?_, ?_, ?_, ?_⟩, ?_, ?_, ?_⟩
      · intro t2 p2 c2 hmem
        rcases List.mem_append.mp hmem with hmem2 | hmem2
        · obtain ⟨h1, h2, h3⟩ := hws t2 p2 c2 hmem2
          refine ⟨h1, h2, ?_⟩
          by_cases hc : c2 = apply_group cfg g
          · rw [hc, vlookup_vupdate_self]
            obtain ⟨u, hu, hut⟩ := h3
            rw [hc] at hu
            exact ⟨_, rfl, Nat.le_trans (Nat.le_of_lt (hbet2 u hu)) hut⟩
          · rw [vlookup_vupdate_ne _ _ hc]
            exact h3
        · rw [List.mem_singleton] at hmem2
          injection hmem2 with h1 h2
          injection h2 with h2 h3
          subst h1
          subst h2
          subst h3
          exact ⟨hntlim, hstep, ⟨_, vlookup_vupdate_self _ _ _, Nat.le_refl _⟩⟩
      · intro c v hv
        by_cases hc : c = apply_group cfg g
        · subst hc
          rw [vlookup_vupdate_self] at hv
          injection hv with hv
          subst hv
          exact ⟨hntlim, _, hstep⟩
        · rw [vlookup_vupdate_ne _ _ hc] at hv
          exact hwv c v hv
      · exact visMono_trans hmono
          (visMono_vupdate fun v hv => Nat.le_of_lt (hbet2 v hv))
      · intro c v hv
        by_cases hc : c = apply_group cfg g
        · subst hc
          rw [vlookup_vupdate_self] at hv
          injection hv with hv
          subst hv
          exact Or.inr ⟨path ++ [apply_group cfg g],
            List.mem_append.mpr (Or.inr (List.mem_singleton_self _))⟩
        · rw [vlookup_vupdate_ne _ _ hc] at hv
          rcases hprov c v hv with h | ⟨p2, hp2⟩
          · exact Or.inl h
          · exact Or.inr ⟨p2, List.mem_append.mpr (Or.inl hp2)⟩
      · exact visMono_vupdate fun v hv => Nat.le_of_lt (hbet2 v hv)
      · intro e he
        exact List.mem_append.mpr (Or.inl he)
      · intro _
        rw [vlookup_vupdate_self]
        exact ⟨_, rfl, Nat.le_refl _⟩
    · rw [if_neg hbet]
      refine ⟨⟨hws, hwv, hmono, hprov⟩, visMono_refl _, fun e he => he, ?_⟩
      intro _
      obtain ⟨v, hv, hvle⟩ := not_better hbet
      exact ⟨v, hv, hvle⟩

theorem dfsExpand_inv {people : Finset Nat} {times : Nat → Nat}
    {limit t : Nat} {path : List Config} {cfg : Config}
    (hre : ReachPath people times path cfg t) :
    ∀ (gs : List (Finset Nat)) (s : DStack × VMap) (vis0 : VMap),
      (∀ g ∈ gs, g ∈ groupsOf cfg) →
      DExpandInv people times limit vis0 s →
      DExpandInv people times limit vis0
          (gs.foldl (dfsRelax times limit t path cfg) s) ∧
        VisMono s.2 (gs.foldl (dfsRelax times limit t path cfg) s).2 ∧
        (∀ g ∈ gs, t + trip_time times g ≤ limit →
          oLE (vlookup (gs.foldl (dfsRelax times limit t path cfg) s).2
            (apply_group cfg g)) (t + trip_time times g)) := by
  intro gs
  induction gs with
  | nil =>
    intro s vis0 _ hinv
    exact ⟨hinv, visMono_refl _, by simp⟩
  | cons g gs ih =>
    intro s vis0 hsub hinv
    obtain ⟨hinv2, hm2, _, hrel2⟩ :=
      dfsRelax_step hre (hsub g (List.mem_cons_self g gs)) hinv
    obtain ⟨hinv3, hm3, hrel3⟩ :=
      ih (dfsRelax times limit t path cfg s g) vis0
        (fun x hx => hsub x (List.mem_cons_of_mem g hx)) hinv2
    rw [List.foldl_cons]
    refine ⟨hinv3, visMono_trans hm2 hm3, ?_⟩
    intro g2 hg2 hle
    rcases List.mem_cons.mp hg2 with rfl | hg3
    · exact oLE_mono hm3 (hrel2 hle)
    · exact hrel3 g2 hg3 hle

theorem geInf_true {t : Nat} {o : Option Nat} (h : geInf t o = true) :
    ∃ m, o = some m ∧ m ≤ t := by
  cases o with
  | none => simp [geInf] at h
  | some m =>
    refine ⟨m, rfl, ?_⟩
    simpa [geInf] using h

/-! ## The main DFS loop theorem -/

theorem dfsLoop_post (people : Finset Nat) (times : Nat → Nat) (limit : Nat) :
    ∀ (fuel : Nat) (st : DStack) (vis : VMap) (minT : Option Nat)
      (best : Option (List Config)) (rmin : Option Nat)
      (rbest : Option (List Config)) (rvis : VMap),
      WFstack people times limit st vis →
      WFvis people times limit vis →
      WFmin people times limit minT best →
      dfsLoop times limit fuel st vis minT best = some (rmin, rbest, rvis) →
      DfsPost people times limit st vis minT rmin rbest rvis := by
  intro fuel
  induction fuel with
  | zero =>
    intro st vis minT best rmin rbest rvis _ _ _ hrun
    simp [dfsLoop] at hrun
  | succ n ih =>
    intro st vis minT best rmin rbest rvis hws hwv hwm hrun
    cases st with
    | nil =>
      rw [dfsLoop] at hrun
      injection hrun with h
      injection h with h1 h
      injection h with h2 h3
      subst h1
      subst h2
      subst h3
      exact ⟨visMono_refl vis, fun m hm => ⟨m, hm, Nat.le_refl m⟩,
        fun t p c hmem => absurd hmem (List.not_mem_nil _),
        fun c v hv => Or.inl hv, hwm, hwv⟩
    | cons entry rest =>
      obtain ⟨t, path, cfg⟩ := entry
      rw [dfsLoop] at hrun
      obtain ⟨htlim, hreach, hole⟩ := hws t path cfg (List.mem_cons_self _ _)
      have hrest : WFstack people times limit rest vis :=
        fun t2 p2 c2 h2 => hws t2 p2 c2 (List.mem_cons_of_mem _ h2)
      by_cases hgoal : cfg.start_side = ∅
      · rw [if_pos hgoal] at hrun
        by_cases hcond : (better t minT && decide (t ≤ limit)) = true
        · rw [if_pos hcond] at hrun
          have hwmin2 : WFmin people times limit (some t) (some path) := by
            refine ⟨?_, ?_⟩
            · intro h
              cases h
            intro m hm
            injection hm with hm
            subst hm
            refine ⟨htlim, path, rfl, ?_, ?_⟩
            · rw [hreach.lastD]
              exact hreach
            · rw [hreach.lastD]
              exact hgoal
          obtain ⟨hm, hmin, hrb, hd, hwmr, hwvr⟩ :=
            ih rest vis (some t) (some path) rmin rbest rvis hrest hwv
              hwmin2 hrun
          obtain ⟨m2, hm2, hm2t⟩ := hmin t rfl
          refine ⟨hm, ?_, ?_, hd, hwmr, hwvr⟩
          · intro m hmm
            rw [Bool.and_eq_true] at hcond
            have hlt := better_some hcond.1 hmm
            exact ⟨m2, hm2, Nat.le_trans hm2t (Nat.le_of_lt hlt)⟩
          · intro t2 p2 c2 hmem
            rcases List.mem_cons.mp hmem with heq | hmem2
            · injection heq with h1 h2
              subst h1
              exact Or.inl ⟨m2, hm2, hm2t⟩
            · exact hrb t2 p2 c2 hmem2
        · rw [if_neg hcond] at hrun
          have hminle : ∃ m, minT = some m ∧ m ≤ t := by
            cases hminT : minT with
            | none =>
              exfalso
              apply hcond
              rw [hminT, Bool.and_eq_true]
              exact ⟨rfl, decide_eq_true htlim⟩
            | some m =>
              refine ⟨m, rfl, ?_⟩
              by_contra hlt
              apply hcond
              rw [hminT, Bool.and_eq_true]
              exact ⟨decide_eq_true (Nat.lt_of_not_le hlt),
                decide_eq_true htlim⟩
          obtain ⟨hm, hmin, hrb, hd, hwmr, hwvr⟩ :=
            ih rest vis minT best rmin rbest rvis hrest hwv hwm hrun
          obtain ⟨m, hmEq, hmt⟩ := hminle
          obtain ⟨m2, hm2, hm2m⟩ := hmin m hmEq
          refine ⟨hm, hmin, ?_, hd, hwmr, hwvr⟩
          intro t2 p2 c2 hmem
          rcases List.mem_cons.mp hmem with heq | hmem2
          · injection heq with h1 h2
            subst h1
            exact Or.inl ⟨m2, hm2, Nat.le_trans hm2m hmt⟩
          · exact hrb t2 p2 c2 hmem2
      · rw [if_neg hgoal] at hrun
        by_cases hprune : (geInf t minT || decide (limit < t)) = true
        · rw [if_pos hprune] at hrun
          obtain ⟨hm, hmin, hrb, hd, hwmr, hwvr⟩ :=
            ih rest vis minT best rmin rbest rvis hrest hwv hwm hrun
          have hminle : ∃ m, minT = some m ∧ m ≤ t := by
            rw [Bool.or_eq_true] at hprune
            rcases hprune with h | h
            · exact geInf_true h
            · exact absurd (of_decide_eq_true h) (Nat.not_lt.mpr htlim)
          obtain ⟨m, hmEq, hmt⟩ := hminle
          obtain ⟨m2, hm2, hm2m⟩ := hmin m hmEq
          refine ⟨hm, hmin, ?_, hd, hwmr, hwvr⟩
          intro t2 p2 c2 hmem
          rcases List.mem_cons.mp hmem with heq | hmem2
          · injection heq with h1 h2
            subst h1
            exact Or.inl ⟨m2, hm2, Nat.le_trans hm2m hmt⟩
          · exact hrb t2 p2 c2 hmem2
        · rw [if_neg hprune] at hrun
          by_cases hstale : staleB t (vlookup vis cfg) = true
          · rw [if_pos hstale] at hrun
            obtain ⟨hm, hmin, hrb, hd, hwmr, hwvr⟩ :=
              ih rest vis minT best rmin rbest rvis hrest hwv hwm hrun
            refine ⟨hm, hmin, ?_, hd, hwmr, hwvr⟩
            intro t2 p2 c2 hmem
            rcases List.mem_cons.mp hmem with heq | hmem2
            · injection heq with h1 h2
              injection h2 with h2 h3
              subst h1
              subst h3
              obtain ⟨v, hv, hvt⟩ := staleB_true hstale
              obtain ⟨u, hu, huv⟩ := hm _ v hv
              exact Or.inr (Or.inl ⟨u, hu, Nat.lt_of_le_of_lt huv hvt⟩)
            · exact hrb t2 p2 c2 hmem2
          · rw [if_neg hstale] at hrun
            simp only [dfsExpand] at hrun
            have hinv0 : DExpandInv people times limit vis ([], vis) :=
              ⟨fun t2 p2 c2 h2 => absurd h2 (List.not_mem_nil _), hwv,
               visMono_refl vis, fun c v hv => Or.inl hv⟩
            obtain ⟨⟨hws2, hwv2, hmono2, hprov2⟩, hmonoS, hrelax⟩ :=
              dfsExpand_inv hreach (groupsOf cfg) ([], vis) vis
                (fun g hg => hg) hinv0
            have hwsAll : WFstack people times limit
                (pushAll (sortDesc ((groupsOf cfg).foldl
                  (dfsRelax times limit t path cfg) ([], vis)).1) rest)
                ((groupsOf cfg).foldl
                  (dfsRelax times limit t path cfg) ([], vis)).2 := by
              intro t2 p2 c2 hmem
              rcases (mem_pushAll _ _).mp hmem with hmv | hmem2
              · exact hws2 t2 p2 c2 (mem_sortDesc.mp hmv)
              · obtain ⟨h1, h2, h3⟩ := hrest t2 p2 c2 hmem2
                exact ⟨h1, h2, oLE_mono hmonoS h3⟩
            obtain ⟨hm, hmin, hrb, hd, hwmr, hwvr⟩ :=
              ih _ _ minT best rmin rbest rvis hwsAll hwv2 hwm hrun
            refine ⟨visMono_trans hmono2 hm, hmin, ?_, ?_, hwmr, hwvr⟩
            · intro t2 p2 c2 hmem
              rcases List.mem_cons.mp hmem with heq | hmem2
              · injection heq with h1 h2
                injection h2 with h2 h3
                subst h1
                subst h3
                refine Or.inr (Or.inr ⟨hgoal, ?_⟩)
                intro w cc hwc hle
                rcases mem_succs.mp hwc with ⟨g, hg, rfl, rfl⟩
                exact oLE_mono hm (hrelax g hg hle)
              · exact hrb t2 p2 c2 ((mem_pushAll _ _).mpr (Or.inr hmem2))
            · intro c v hv
              rcases hd c v hv with hveq | hfin
              · rcases hprov2 c v hveq with hvis | ⟨p2, hp2⟩
                · exact Or.inl hvis
                · have hrb2 := hrb v p2 c
                    ((mem_pushAll _ _).mpr (Or.inl (mem_sortDesc.mpr hp2)))
                  rcases hrb2 with h | h | h
                  · exact Or.inr (Or.inl h)
                  · obtain ⟨u, hu, huv⟩ := h
                    rw [hv] at hu
                    injection hu with hu
                    omega
                  · exact Or.inr (Or.inr h)
              · exact Or.inr hfin

theorem wfstack_initial (people : Finset Nat) (times : Nat → Nat)
    (limit : Nat) : WFstack people times limit
      [(0, [initial_state people], initial_state people)]
      [(initial_state people, 0)] := by
  intro t p c hmem
  rw [List.mem_singleton] at hmem
  injection hmem with h1 h2
  injection h2 with h2 h3
  subst h1
  subst h2
  subst h3
  exact ⟨Nat.zero_le limit, ReachPath.init, ⟨0, by simp [vlookup], Nat.le_refl 0⟩⟩

/-- All the facts a terminating DFS run provides: soundness of the
returned optimum, and that it undercuts every within-limit solution
path. -/
theorem dfs_run_facts {people : Finset Nat} {times : Nat → Nat}
    {limit fuel : Nat} {rmin : Option Nat} {rbest : Option (List Config)}
    {rvis : VMap}
    (hrun : solve_bridge_problem_dfs people times limit fuel =
      some (rmin, rbest, rvis)) :
    (∀ m, rmin = some m → m ≤ limit ∧ ∃ p, rbest = some p ∧
      ReachPath people times p (p.getLastD cfg0) m ∧
      (p.getLastD cfg0).start_side = ∅) ∧
    (rmin = none → rbest = none) ∧
    WFvis people times limit rvis ∧
    (∀ p c W, ReachPath people times p c W → c.start_side = ∅ →
      W ≤ limit → ∃ b, rmin = some b ∧ b ≤ W) ∧
    vlookup rvis (initial_state people) = some 0 := by
  rw [solve_bridge_problem_dfs] at hrun
  obtain ⟨hm, hmin, hrb, hd, hwmr, hwvr⟩ :=
    dfsLoop_post people times limit fuel _ _ none none rmin rbest rvis
      (wfstack_initial people times limit) (wfvis_initial people times limit)
      ⟨fun _ => rfl, fun m hm => by cases hm⟩ hrun
  have hinit : vlookup rvis (initial_state people) = some 0 := by
    obtain ⟨u, hu, hule⟩ := hm (initial_state people) 0 (by simp [vlookup])
    rw [Nat.le_zero] at hule
    subst hule
    exact hu
  have hFIN : ∀ c v, vlookup rvis c = some v →
      FIN times limit rmin rvis v c := by
    intro c v hv
    rcases hd c v hv with hv0 | hfin
    · have hc : initial_state people = c ∧ 0 = v := by
        by_cases h : initial_state people = c
        · subst h
          simp [vlookup] at hv0
          exact ⟨rfl, hv0⟩
        · simp [vlookup, h] at hv0
      obtain ⟨rfl, rfl⟩ := hc
      have hrb0 := hrb 0 [initial_state people] (initial_state people)
        (List.mem_singleton_self _)
      rcases hrb0 with hb | hlt | hrel
      · exact Or.inl hb
      · obtain ⟨u, _, hu⟩ := hlt
        omega
      · exact Or.inr hrel
    · exact hfin
  refine ⟨hwmr.2, hwmr.1, hwvr, ?_, hinit⟩
  intro p c W hre hgoal hW
  rcases pathLift people times limit rmin rvis hFIN hinit hre hW with
    ⟨b, hb1, hb2⟩ | ⟨u, hu, huW⟩
  · exact ⟨b, hb1, hb2⟩
  · rcases hFIN c u hu with ⟨b, hb1, hb2⟩ | ⟨hne, _⟩
    · exact ⟨b, hb1, Nat.le_trans hb2 huW⟩
    · exact absurd hgoal hne

/-! ## Reporter correctness -/

theorem renderSteps_ok (vmap : VMap) : ∀ (l : List Config)
    (steps : List StepDesc), renderSteps vmap l = some steps →
    StepsOK vmap l steps := by
  intro l
  induction l with
  | nil =>
    intro steps h
    have h2 : (some ([] : List StepDesc) : Option (List StepDesc)) =
      some steps := h
    injection h2 with h2
    exact h2.symm
  | cons a t ih =>
    cases t with
    | nil =>
      intro steps h
      have h2 : (some ([] : List StepDesc) : Option (List StepDesc)) =
        some steps := h
      injection h2 with h2
      exact h2.symm
    | cons b rest =>
      intro steps h
      rw [renderSteps] at h
      cases hr : renderStep vmap a b with
      | none =>
        rw [hr] at h
        cases h
      | some s =>
        cases hrs : renderSteps vmap (b :: rest) with
        | none =>
          rw [hr, hrs] at h
          cases h
        | some ss =>
          rw [hr, hrs] at h
          injection h with h
          subst h
          refine ⟨?_, ih ss hrs⟩
          rw [renderStep] at hr
          cases hn : vlookup vmap b with
          | none =>
            rw [hn] at hr
            cases hr
          | some tn =>
            cases hp : vlookup vmap a with
            | none =>
              rw [hn, hp] at hr
              cases hr
            | some tp =>
              rw [hn, hp] at hr
              injection hr with hr
              subst hr
              refine ⟨tn, tp, rfl, rfl, rfl, rfl, ?_, rfl, rfl, rfl⟩
              simp

/-! ## One-step unfolding equations for the loops (used for the concrete
and single-person evaluations) -/

theorem bfsLoop_nil (times : Nat → Nat) (limit fuel : Nat) (vis : VMap) :
    bfsLoop times limit (fuel + 1) [] vis = some (none, none, vis) := rfl

theorem bfsLoop_cons (times : Nat → Nat) (limit fuel t : Nat)
    (path : List Config) (rest : PQ) (vis : VMap) :
    bfsLoop times limit (fuel + 1) ((t, path) :: rest) vis =
      if (path.getLastD cfg0).start_side = ∅ then
        if t ≤ limit then some (some t, some path, vis)
        else bfsLoop times limit fuel rest vis
      else if staleB t (vlookup vis (path.getLastD cfg0)) then
        bfsLoop times limit fuel rest vis
      else
        bfsLoop times limit fuel
          (bfsExpand times limit t path (path.getLastD cfg0) rest vis).1
          (bfsExpand times limit t path (path.getLastD cfg0) rest vis).2 := rfl

theorem dfsLoop_nil (times : Nat → Nat) (limit fuel : Nat) (vis : VMap)
    (minT : Option Nat) (best : Option (List Config)) :
    dfsLoop times limit (fuel + 1) [] vis minT best =
      some (minT, best, vis) := rfl

theorem dfsLoop_cons (times : Nat → Nat) (limit fuel t : Nat)
    (path : List Config) (cfg : Config) (rest : DStack) (vis : VMap)
    (minT : Option Nat) (best : Option (List Config)) :
    dfsLoop times limit (fuel + 1) ((t, path, cfg) :: rest) vis minT best =
      if cfg.start_side = ∅ then
        if better t minT && decide (t ≤ limit) then
          dfsLoop times limit fuel rest vis (some t) (some path)
        else dfsLoop times limit fuel rest vis minT best
      else if geInf t minT || decide (limit < t) then
        dfsLoop times limit fuel rest vis minT best
      else if staleB t (vlookup vis cfg) then
        dfsLoop times limit fuel rest vis minT best
      else
        dfsLoop times limit fuel
          (pushAll (sortDesc (dfsExpand times limit t path cfg vis).1) rest)
          (dfsExpand times limit t path cfg vis).2 minT best := rfl

/-! ## Claim theorems -/

/-- C1: for every crossing-times mapping and time limit for which at least
one complete path (all people start-side to start-side-empty) has
cumulative time within the limit, a terminating run of
`solve_bridge_problem_bfs` returns a `best_time` that is achieved by the
returned path and is the minimum cumulative time over all complete paths
respecting the limit. -/
theorem claim_C1_bfs_returns_minimum {people : Finset Nat}
    {times : Nat → Nat} {limit fuel : Nat} {best : Option Nat}
    {bpath : Option (List Config)} {rvis : VMap}
    (hrun : solve_bridge_problem_bfs people times limit fuel =
      some (best, bpath, rvis))
    {p0 : List Config} {c0 : Config} {W0 : Nat}
    (hsol : ReachPath people times p0 c0 W0) (hgoal : c0.start_side = ∅)
    (hW : W0 ≤ limit) :
    ∃ t, best = some t ∧ t ≤ limit ∧
      (∃ q, bpath = some q ∧ ReachPath people times q (q.getLastD cfg0) t ∧
        (q.getLastD cfg0).start_side = ∅) ∧
      ∀ p c W, ReachPath people times p c W → c.start_side = ∅ →
        W ≤ limit → t ≤ W := by
  obtain ⟨hsound, _, _, hcomp, _⟩ := bfs_run_facts hrun
  obtain ⟨b, hb, hbW⟩ := hcomp p0 c0 W0 hsol hgoal hW
  obtain ⟨hble, q, hq, hre, hqgoal⟩ := hsound b hb
  refine ⟨b, hb, hble, ⟨q, hq, hre, hqgoal⟩, ?_⟩
  intro p c W hre2 hgoal2 hW2
  obtain ⟨b2, hb2, hb2W⟩ := hcomp p c W hre2 hgoal2 hW2
  rw [hb] at hb2
  injection hb2 with hb2
  subst hb2
  exact hb2W

theorem claim_C1_witness :
    ∃ t, (some 1 : Option Nat) = some t ∧ t ≤ 1 ∧
      (∃ q, (some [initial_state {0}, Config.mk ∅ {0} UmbPos.uend] :
          Option (List Config)) = some q ∧
        ReachPath {0} (fun _ => 1) q (q.getLastD cfg0) t ∧
        (q.getLastD cfg0).start_side = ∅) ∧
      ∀ p c W, ReachPath {0} (fun _ => 1) p c W → c.start_side = ∅ →
        W ≤ 1 → t ≤ W := by
  have hrun : solve_bridge_problem_bfs {0} (fun _ => 1) 1 5 =
      some (some 1, some [initial_state {0}, Config.mk ∅ {0} UmbPos.uend],
        [(initial_state {0}, 0), (Config.mk ∅ {0} UmbPos.uend, 1)]) := by
    decide
  have hsol : ReachPath {0} (fun _ => 1)
      [initial_state {0}, Config.mk ∅ {0} UmbPos.uend]
      (Config.mk ∅ {0} UmbPos.uend) 1 :=
    ReachPath.step ReachPath.init
      (show ((1 : Nat), Config.mk ∅ {0} UmbPos.uend) ∈
        succs (fun _ => 1) (initial_state {0}) by decide)
  exact claim_C1_bfs_returns_minimum hrun hsol (by decide) (by decide)

/-- C2: for every input where a within-limit solution exists, terminating
runs of the two solvers return the same `best_time`, and each returned
path is a valid path (starts at the initial configuration, each step is a
legal move of at most two people from the resource side) ending at the
goal whose step costs sum to `best_time`. -/
theorem claim_C2_solvers_agree {people : Finset Nat} {times : Nat → Nat}
    {limit fuelB fuelD : Nat} {bestB bestD : Option Nat}
    {bpathB bpathD : Option (List Config)} {rvisB rvisD : VMap}
    (hrunB : solve_bridge_problem_bfs people times limit fuelB =
      some (bestB, bpathB, rvisB))
    (hrunD : solve_bridge_problem_dfs people times limit fuelD =
      some (bestD, bpathD, rvisD))
    {p0 : List Config} {c0 : Config} {W0 : Nat}
    (hsol : ReachPath people times p0 c0 W0) (hgoal : c0.start_side = ∅)
    (hW : W0 ≤ limit) :
    ∃ t, bestB = some t ∧ bestD = some t ∧
      (∃ q, bpathB = some q ∧ q.head? = some (initial_state people) ∧
        List.Chain' SpecStep q ∧ (q.getLastD cfg0).start_side = ∅ ∧
        pathCost times q = t) ∧
      (∃ q, bpathD = some q ∧ q.head? = some (initial_state people) ∧
        List.Chain' SpecStep q ∧ (q.getLastD cfg0).start_side = ∅ ∧
        pathCost times q = t) := by
  obtain ⟨hsoundB, _, _, hcompB, _⟩ := bfs_run_facts hrunB
  obtain ⟨hsoundD, _, _, hcompD, _⟩ := dfs_run_facts hrunD
  obtain ⟨b, hb, hbW⟩ := hcompB p0 c0 W0 hsol hgoal hW
  obtain ⟨d, hd, hdW⟩ := hcompD p0 c0 W0 hsol hgoal hW
  obtain ⟨hbl, qB, hqB, hreB, hgB⟩ := hsoundB b hb
  obtain ⟨hdl, qD, hqD, hreD, hgD⟩ := hsoundD d hd
  obtain ⟨b2, hb2, hb2le⟩ := hcompB qD _ d hreD hgD hdl
  rw [hb] at hb2
  injection hb2 with hb2
  subst hb2
  obtain ⟨d2, hd2, hd2le⟩ := hcompD qB _ b hreB hgB hbl
  rw [hd] at hd2
  injection hd2 with hd2
  subst hd2
  have hbd : b = d := Nat.le_antisymm hb2le hd2le
  subst hbd
  exact ⟨b, hb, hd, ⟨qB, hqB, hreB.head, hreB.chain, hgB, hreB.cost⟩,
    ⟨qD, hqD, hreD.head, hreD.chain, hgD, hreD.cost⟩⟩

theorem claim_C2_witness :
    ∃ t, (some 1 : Option Nat) = some t ∧ (some 1 : Option Nat) = some t ∧
      (∃ q, (some [initial_state {0}, Config.mk ∅ {0} UmbPos.uend] :
          Option (List Config)) = some q ∧
        q.head? = some (initial_state {0}) ∧ List.Chain' SpecStep q ∧
        (q.getLastD cfg0).start_side = ∅ ∧ pathCost (fun _ => 1) q = t) ∧
      (∃ q, (some [initial_state {0}, Config.mk ∅ {0} UmbPos.uend] :
          Option (List Config)) = some q ∧
        q.head? = some (initial_state {0}) ∧ List.Chain' SpecStep q ∧
        (q.getLastD cfg0).start_side = ∅ ∧ pathCost (fun _ => 1) q = t) := by
  have hrunB : solve_bridge_problem_bfs {0} (fun _ => 1) 1 5 =
      some (some 1, some [initial_state {0}, Config.mk ∅ {0} UmbPos.uend],
        [(initial_state {0}, 0), (Config.mk ∅ {0} UmbPos.uend, 1)]) := by
    decide
  have hrunD : solve_bridge_problem_dfs {0} (fun _ => 1) 1 6 =
      some (some 1, some [initial_state {0}, Config.mk ∅ {0} UmbPos.uend],
        [(initial_state {0}, 0), (Config.mk ∅ {0} UmbPos.uend, 1)]) := by
    decide
  have hsol : ReachPath {0} (fun _ => 1)
      [initial_state {0}, Config.mk ∅ {0} UmbPos.uend]
      (Config.mk ∅ {0} UmbPos.uend) 1 :=
    ReachPath.step ReachPath.init
      (show ((1 : Nat), Config.mk ∅ {0} UmbPos.uend) ∈
        succs (fun _ => 1) (initial_state {0}) by decide)
  exact claim_C2_solvers_agree hrunB hrunD hsol (by decide) (by decide)

/-- C3: every configuration in a path returned by either solver has
disjoint sides whose union is the full person set, and consecutive
configurations differ by exactly one valid move (a nonempty group of at
most two people from the resource-holding side, whose membership flips
along with the resource). -/
theorem claim_C3_path_invariants {people : Finset Nat} {times : Nat → Nat}
    {limit fuelB fuelD : Nat} {bestB bestD : Option Nat}
    {bpathB bpathD : Option (List Config)} {rvisB rvisD : VMap}
    (hrunB : solve_bridge_problem_bfs people times limit fuelB =
      some (bestB, bpathB, rvisB))
    (hrunD : solve_bridge_problem_dfs people times limit fuelD =
      some (bestD, bpathD, rvisD)) :
    (∀ p, bpathB = some p → (∀ x ∈ p, x.start_side ∩ x.end_side = ∅ ∧
      x.start_side ∪ x.end_side = people) ∧ List.Chain' SpecStep p) ∧
    (∀ p, bpathD = some p → (∀ x ∈ p, x.start_side ∩ x.end_side = ∅ ∧
      x.start_side ∪ x.end_side = people) ∧ List.Chain' SpecStep p) := by
  obtain ⟨hsoundB, hnoneB, _, _, _⟩ := bfs_run_facts hrunB
  obtain ⟨hsoundD, hnoneD, _, _, _⟩ := dfs_run_facts hrunD
  constructor
  · intro p hp
    cases hbB : bestB with
    | none =>
      rw [hnoneB hbB] at hp
      cases hp
    | some t =>
      obtain ⟨_, q, hq, hre, _⟩ := hsoundB t hbB
      rw [hq] at hp
      injection hp with hp
      subst hp
      exact ⟨hre.part, hre.chain⟩
  · intro p hp
    cases hbD : bestD with
    | none =>
      rw [hnoneD hbD] at hp
      cases hp
    | some t =>
      obtain ⟨_, q, hq, hre, _⟩ := hsoundD t hbD
      rw [hq] at hp
      injection hp with hp
      subst hp
      exact ⟨hre.part, hre.chain⟩

theorem claim_C3_witness :
    (∀ p, (some [initial_state {0}, Config.mk ∅ {0} UmbPos.uend] :
        Option (List Config)) = some p →
      (∀ x ∈ p, x.start_side ∩ x.end_side = ∅ ∧
        x.start_side ∪ x.end_side = ({0} : Finset Nat)) ∧
      List.Chain' SpecStep p) ∧
    (∀ p, (some [initial_state {0}, Config.mk ∅ {0} UmbPos.uend] :
        Option (List Config)) = some p →
      (∀ x ∈ p, x.start_side ∩ x.end_side = ∅ ∧
        x.start_side ∪ x.end_side = ({0} : Finset Nat)) ∧
      List.Chain' SpecStep p) := by
  have hrunB : solve_bridge_problem_bfs {0} (fun _ => 1) 1 5 =
      some (some 1, some [initial_state {0}, Config.mk ∅ {0} UmbPos.uend],
        [(initial_state {0}, 0), (Config.mk ∅ {0} UmbPos.uend, 1)]) := by
    decide
  have hrunD : solve_bridge_problem_dfs {0} (fun _ => 1) 1 6 =
      some (some 1, some [initial_state {0}, Config.mk ∅ {0} UmbPos.uend],
        [(initial_state {0}, 0), (Config.mk ∅ {0} UmbPos.uend, 1)]) := by
    decide
  exact claim_C3_path_invariants hrunB hrunD

/-- C4: for crossing times A=5, B=10, G=20, H=25 (people 0,1,2,3): with
time limit 60 both solvers return best time 60; with time limit 15 both
report no solution (best time and path are both `None`). -/
theorem claim_C4_concrete_scenario :
    bestOf (solve_bridge_problem_bfs {0, 1, 2, 3}
      (fun p => if p = 0 then 5 else if p = 1 then 10
        else if p = 2 then 20 else 25) 60 500) = some (some 60) ∧
    bestOf (solve_bridge_problem_dfs {0, 1, 2, 3}
      (fun p => if p = 0 then 5 else if p = 1 then 10
        else if p = 2 then 20 else 25) 60 2000) = some (some 60) ∧
    bestOf (solve_bridge_problem_bfs {0, 1, 2, 3}
      (fun p => if p = 0 then 5 else if p = 1 then 10
        else if p = 2 then 20 else 25) 15 500) = some none ∧
    pathOf (solve_bridge_problem_bfs {0, 1, 2, 3}
      (fun p => if p = 0 then 5 else if p = 1 then 10
        else if p = 2 then 20 else 25) 15 500) = some none ∧
    bestOf (solve_bridge_problem_dfs {0, 1, 2, 3}
      (fun p => if p = 0 then 5 else if p = 1 then 10
        else if p = 2 then 20 else 25) 15 500) = some none ∧
    pathOf (solve_bridge_problem_dfs {0, 1, 2, 3}
      (fun p => if p = 0 then 5 else if p = 1 then 10
        else if p = 2 then 20 else 25) 15 500) = some none := by
  decide

/-- C5: when a terminating search exhausts its queue/stack without finding
a within-limit solution, each solver returns an explicit absence result
(best time `None` and path `None`, no exception) together with the
arrival map accumulated during the search: the map still holds the
initial configuration at time 0 and every recorded entry is a genuine
within-limit arrival time of a valid path. -/
theorem claim_C5_absence_result {people : Finset Nat} {times : Nat → Nat}
    {limit fuelB fuelD : Nat} {bestB bestD : Option Nat}
    {bpathB bpathD : Option (List Config)} {rvisB rvisD : VMap}
    (hrunB : solve_bridge_problem_bfs people times limit fuelB =
      some (bestB, bpathB, rvisB))
    (hrunD : solve_bridge_problem_dfs people times limit fuelD =
      some (bestD, bpathD, rvisD))
    (hnB : bestB = none) (hnD : bestD = none) :
    bpathB = none ∧ bpathD = none ∧
    vlookup rvisB (initial_state people) = some 0 ∧
    vlookup rvisD (initial_state people) = some 0 ∧
    (∀ c v, vlookup rvisB c = some v → v ≤ limit ∧
      ∃ p, ReachPath people times p c v) ∧
    (∀ c v, vlookup rvisD c = some v → v ≤ limit ∧
      ∃ p, ReachPath people times p c v) := by
  obtain ⟨_, hnoneB, hwvB, _, hinitB⟩ := bfs_run_facts hrunB
  obtain ⟨_, hnoneD, hwvD, _, hinitD⟩ := dfs_run_facts hrunD
  exact ⟨hnoneB hnB, hnoneD hnD, hinitB, hinitD, hwvB, hwvD⟩

theorem claim_C5_witness :
    (none : Option (List Config)) = none ∧
    (none : Option (List Config)) = none ∧
    vlookup [(initial_state {0}, 0)] (initial_state {0}) = some 0 ∧
    vlookup [(initial_state {0}, 0)] (initial_state {0}) = some 0 ∧
    (∀ c v, vlookup [(initial_state {0}, 0)] c = some v → v ≤ 5 ∧
      ∃ p, ReachPath {0} (fun _ => 7) p c v) ∧
    (∀ c v, vlookup [(initial_state {0}, 0)] c = some v → v ≤ 5 ∧
      ∃ p, ReachPath {0} (fun _ => 7) p c v) := by
  have hrunB : solve_bridge_problem_bfs {0} (fun _ => 7) 5 5 =
      some (none, none, [(initial_state {0}, 0)]) := by decide
  have hrunD : solve_bridge_problem_dfs {0} (fun _ => 7) 5 5 =
      some (none, none, [(initial_state {0}, 0)]) := by decide
  exact claim_C5_absence_result hrunB hrunD rfl rfl

/-- C6 counterexample: the claim predicts that for an empty person set and
a time limit of at least 0 the solvers report absence of a solution, but
on an empty mapping with limit 0 both solvers return best time 0 (the
initial configuration is already the goal). -/
theorem claim_C6_counterexample :
    bestOf (solve_bridge_problem_bfs ∅ (fun _ => 1) 0 2) = some (some 0) ∧
    bestOf (solve_bridge_problem_dfs ∅ (fun _ => 1) 0 2) = some (some 0) := by
  decide

/-- C7: the time-limit boundary is inclusive: for crossing times A=1, B=2
(people 0, 1) and limit exactly 2, both solvers accept the path in which
A and B cross together at cumulative time 2 and return best time 2. -/
theorem claim_C7_inclusive_boundary :
    bestOf (solve_bridge_problem_bfs {0, 1}
      (fun p => if p = 0 then 1 else 2) 2 50) = some (some 2) ∧
    bestOf (solve_bridge_problem_dfs {0, 1}
      (fun p => if p = 0 then 1 else 2) 2 50) = some (some 2) := by
  decide

/-- C9: the reporter renders a clear "no solution" message when the path
is absent or empty — for any arrival map whatsoever, including the empty
one, so it never reads the path or the map in that case — and when it
renders a non-empty path, every step's trip duration is
`arrival_map[next] - arrival_map[prev]` and the moved set and direction
are derived from the start-side set difference and the previous
configuration's resource position. -/
theorem claim_C9_reporter (vmap : VMap) (l : List Config)
    (steps : List StepDesc)
    (hrender : print_bridge_solution (some l) vmap = some (Sum.inr steps)) :
    print_bridge_solution none vmap = some (Sum.inl noSolutionMsg) ∧
    print_bridge_solution (some []) vmap = some (Sum.inl noSolutionMsg) ∧
    StepsOK vmap l steps := by
  refine ⟨rfl, rfl, ?_⟩
  cases l with
  | nil =>
    cases hrender
  | cons a rest =>
    have hrender2 : (renderSteps vmap (a :: rest)).map Sum.inr =
        some (Sum.inr steps) := hrender
    cases hrs : renderSteps vmap (a :: rest) with
    | none =>
      rw [hrs] at hrender2
      cases hrender2
    | some ss =>
      rw [hrs] at hrender2
      injection hrender2 with hrender2
      injection hrender2 with hrender2
      subst hrender2
      exact renderSteps_ok vmap (a :: rest) ss hrs

theorem claim_C9_witness :
    print_bridge_solution none
      [(cfg0, 0), (Config.mk ∅ ∅ UmbPos.uend, 3)] =
        some (Sum.inl noSolutionMsg) ∧
    print_bridge_solution (some [])
      [(cfg0, 0), (Config.mk ∅ ∅ UmbPos.uend, 3)] =
        some (Sum.inl noSolutionMsg) ∧
    StepsOK [(cfg0, 0), (Config.mk ∅ ∅ UmbPos.uend, 3)]
      [cfg0, Config.mk ∅ ∅ UmbPos.uend]
      [StepDesc.mk ∅ true (3 - 0) 3 ∅ ∅] := by
  have hrender : print_bridge_solution
      (some [cfg0, Config.mk ∅ ∅ UmbPos.uend])
      [(cfg0, 0), (Config.mk ∅ ∅ UmbPos.uend, 3)] =
      some (Sum.inr [StepDesc.mk ∅ true (3 - 0) 3 ∅ ∅]) := rfl
  exact claim_C9_reporter _ _ _ hrender

/-- C10: a terminating BFS run never returns a best time above the limit,
and every arrival time it records is within the limit (every queue entry
is pushed with a within-limit cumulative time; the loop-invariant proof
of `bfsLoop_post` discharges the over-limit goal branch by
contradiction). -/
theorem claim_C10_bfs_within_limit {people : Finset Nat}
    {times : Nat → Nat} {limit fuel : Nat} {best : Option Nat}
    {bpath : Option (List Config)} {rvis : VMap}
    (hrun : solve_bridge_problem_bfs people times limit fuel =
      some (best, bpath, rvis)) :
    (∀ t, best = some t → t ≤ limit) ∧
    (∀ c v, vlookup rvis c = some v → v ≤ limit) := by
  obtain ⟨hsound, _, hwv, _, _⟩ := bfs_run_facts hrun
  exact ⟨fun t ht => (hsound t ht).1, fun c v hv => (hwv c v hv).1⟩

theorem claim_C10_witness :
    (∀ t, (some 1 : Option Nat) = some t → t ≤ 1) ∧
    (∀ c v, vlookup [(initial_state {0}, 0),
      (Config.mk ∅ {0} UmbPos.uend, 1)] c = some v → v ≤ 1) := by
  have hrun : solve_bridge_problem_bfs {0} (fun _ => 1) 1 5 =
      some (some 1, some [initial_state {0}, Config.mk ∅ {0} UmbPos.uend],
        [(initial_state {0}, 0), (Config.mk ∅ {0} UmbPos.uend, 1)]) := by
    decide
  exact claim_C10_bfs_within_limit hrun

/-- C6 (amended): for an empty person set the initial configuration is
already the goal configuration, so for every time limit (naturals, hence
limit at least 0) both solvers immediately return best time 0 with the
trivial one-configuration path — not an absence-of-solution result as the
claim predicted. -/
theorem claim_C6_amended (times : Nat → Nat) (limit fuel : Nat) :
    solve_bridge_problem_bfs ∅ times limit (fuel + 1) =
      some (some 0, some [initial_state ∅], [(initial_state ∅, 0)]) ∧
    solve_bridge_problem_dfs ∅ times limit (fuel + 2) =
      some (some 0, some [initial_state ∅], [(initial_state ∅, 0)]) := by
  constructor
  · show bfsLoop times limit (fuel + 1) ((0, [initial_state ∅]) :: [])
      [(initial_state ∅, 0)] = _
    rw [bfsLoop_cons]
    rw [if_pos (show ([initial_state ∅].getLastD cfg0).start_side = ∅
      from rfl)]
    rw [if_pos (Nat.zero_le limit)]
  · show dfsLoop times limit (fuel + 1 + 1)
      ((0, [initial_state ∅], initial_state ∅) :: [])
      [(initial_state ∅, 0)] none none = _
    rw [dfsLoop_cons]
    rw [if_pos (show (initial_state ∅).start_side = ∅ from rfl)]
    rw [if_pos (show (better 0 none && decide ((0 : Nat) ≤ limit)) = true by
      rw [Bool.and_eq_true]
      exact ⟨rfl, decide_eq_true (Nat.zero_le limit)⟩)]
    exact dfsLoop_nil times limit fuel _ _ _

/-- C8: for a single person (modelled as person 0 with an arbitrary
duration function), each solver returns the optimal path consisting of
exactly one direct crossing costing that person's duration whenever it is
within the limit, and reports absence of a solution otherwise. -/
theorem claim_C8_single_person (times : Nat → Nat) (limit fuel : Nat) :
    (times 0 ≤ limit →
      solve_bridge_problem_bfs {0} times limit (fuel + 2) =
        some (some (times 0),
          some [initial_state {0}, Config.mk ∅ {0} UmbPos.uend],
          [(initial_state {0}, 0),
           (Config.mk ∅ {0} UmbPos.uend, times 0)]) ∧
      solve_bridge_problem_dfs {0} times limit (fuel + 3) =
        some (some (times 0),
          some [initial_state {0}, Config.mk ∅ {0} UmbPos.uend],
          [(initial_state {0}, 0),
           (Config.mk ∅ {0} UmbPos.uend, times 0)])) ∧
    (limit < times 0 →
      solve_bridge_problem_bfs {0} times limit (fuel + 2) =
        some (none, none, [(initial_state {0}, 0)]) ∧
      solve_bridge_problem_dfs {0} times limit (fuel + 3) =
        some (none, none, [(initial_state {0}, 0)])) := by
  have hgc : apply_group (initial_state {0}) ({0} : Finset Nat) =
      Config.mk ∅ {0} UmbPos.uend := by decide
  have htr0 : (0 : Nat) + trip_time times ({0} : Finset Nat) = times 0 := by
    show (0 : Nat) + ({0} : Finset Nat).sup times = times 0
    rw [Finset.sup_singleton, Nat.zero_add]
  have hgroups : groupsOf (initial_state {0}) = [({0} : Finset Nat)] := by
    decide
  have hlk : vlookup [(initial_state {0}, 0)]
      (Config.mk ∅ {0} UmbPos.uend) = none := by decide
  constructor
  · intro h
    have hnl : ¬limit < times 0 := Nat.not_lt.mpr h
    have hrelaxPos : bfsRelax times limit 0 [initial_state {0}]
        (initial_state {0}) ([], [(initial_state {0}, 0)]) {0} =
        ([(times 0, [initial_state {0}, Config.mk ∅ {0} UmbPos.uend])],
         [(initial_state {0}, 0),
          (Config.mk ∅ {0} UmbPos.uend, times 0)]) := by
      unfold bfsRelax
      dsimp only
      rw [hgc, htr0, if_neg hnl, hlk,
        if_pos (show better (times 0) none = true from rfl)]
      rfl
    have hexpand : bfsExpand times limit 0 [initial_state {0}]
        (initial_state {0}) [] [(initial_state {0}, 0)] =
        ([(times 0, [initial_state {0}, Config.mk ∅ {0} UmbPos.uend])],
         [(initial_state {0}, 0),
          (Config.mk ∅ {0} UmbPos.uend, times 0)]) := by
      unfold bfsExpand
      rw [hgroups, List.foldl_cons, List.foldl_nil]
      exact hrelaxPos
    constructor
    · show bfsLoop times limit (fuel + 1 + 1)
        ((0, [initial_state {0}]) :: []) [(initial_state {0}, 0)] = _
      rw [bfsLoop_cons]
      rw [if_neg (show ¬([initial_state {0}].getLastD cfg0).start_side = ∅
        from by decide)]
      rw [if_neg (show ¬staleB 0 (vlookup [(initial_state {0}, 0)]
        ([initial_state {0}].getLastD cfg0)) = true from by decide)]
      have hl1 : [initial_state {0}].getLastD cfg0 = initial_state {0} := rfl
      rw [hl1, hexpand]
      rw [bfsLoop_cons]
      rw [if_pos (show ([initial_state {0},
        Config.mk ∅ {0} UmbPos.uend].getLastD cfg0).start_side = ∅
        from rfl)]
      rw [if_pos h]
    · have hdrelaxPos : dfsRelax times limit 0 [initial_state {0}]
          (initial_state {0}) ([], [(initial_state {0}, 0)]) {0} =
          ([(times 0, [initial_state {0}, Config.mk ∅ {0} UmbPos.uend],
             Config.mk ∅ {0} UmbPos.uend)],
           [(initial_state {0}, 0),
            (Config.mk ∅ {0} UmbPos.uend, times 0)]) := by
        unfold dfsRelax
        dsimp only
        rw [hgc, htr0, if_neg hnl, hlk,
          if_pos (show better (times 0) none = true from rfl)]
        rfl
      have hdexpand : dfsExpand times limit 0 [initial_state {0}]
          (initial_state {0}) [(initial_state {0}, 0)] =
          ([(times 0, [initial_state {0}, Config.mk ∅ {0} UmbPos.uend],
             Config.mk ∅ {0} UmbPos.uend)],
           [(initial_state {0}, 0),
            (Config.mk ∅ {0} UmbPos.uend, times 0)]) := by
        unfold dfsExpand
        rw [hgroups, List.foldl_cons, List.foldl_nil]
        exact hdrelaxPos
      show dfsLoop times limit (fuel + 2 + 1)
        ((0, [initial_state {0}], initial_state {0}) :: [])
        [(initial_state {0}, 0)] none none = _
      rw [dfsLoop_cons]
      rw [if_neg (show ¬(initial_state {0}).start_side = ∅ from by decide)]
      rw [if_neg (show ¬(geInf 0 none || decide (limit < 0)) = true from by
        simp [geInf])]
      rw [if_neg (show ¬staleB 0 (vlookup [(initial_state {0}, 0)]
        (initial_state {0})) = true from by decide)]
      rw [hdexpand]
      show dfsLoop times limit (fuel + 1 + 1)
        ((times 0, [initial_state {0}, Config.mk ∅ {0} UmbPos.uend],
          Config.mk ∅ {0} UmbPos.uend) :: [])
        [(initial_state {0}, 0), (Config.mk ∅ {0} UmbPos.uend, times 0)]
        none none = _
      rw [dfsLoop_cons]
      rw [if_pos (show (Config.mk ∅ {0} UmbPos.uend).start_side = ∅
        from rfl)]
      rw [if_pos (show (better (times 0) none &&
          decide (times 0 ≤ limit)) = true by
        rw [Bool.and_eq_true]
        exact ⟨rfl, decide_eq_true h⟩)]
      exact dfsLoop_nil times limit fuel _ _ _
  · intro h
    have hrelaxNeg : bfsRelax times limit 0 [initial_state {0}]
        (initial_state {0}) ([], [(initial_state {0}, 0)]) {0} =
        ([], [(initial_state {0}, 0)]) := by
      unfold bfsRelax
      dsimp only
      rw [htr0, if_pos h]
    have hexpand : bfsExpand times limit 0 [initial_state {0}]
        (initial_state {0}) [] [(initial_state {0}, 0)] =
        ([], [(initial_state {0}, 0)]) := by
      unfold bfsExpand
      rw [hgroups, List.foldl_cons, List.foldl_nil]
      exact hrelaxNeg
    constructor
    · show bfsLoop times limit (fuel + 1 + 1)
        ((0, [initial_state {0}]) :: []) [(initial_state {0}, 0)] = _
      rw [bfsLoop_cons]
      rw [if_neg (show ¬([initial_state {0}].getLastD cfg0).start_side = ∅
        from by decide)]
      rw [if_neg (show ¬staleB 0 (vlookup [(initial_state {0}, 0)]
        ([initial_state {0}].getLastD cfg0)) = true from by decide)]
      have hl1 : [initial_state {0}].getLastD cfg0 = initial_state {0} := rfl
      rw [hl1, hexpand]
      exact bfsLoop_nil times limit fuel _
    · have hdrelaxNeg : dfsRelax times limit 0 [initial_state {0}]
          (initial_state {0}) ([], [(initial_state {0}, 0)]) {0} =
          ([], [(initial_state {0}, 0)]) := by
        unfold dfsRelax
        dsimp only
        rw [htr0, if_pos h]
      have hdexpand : dfsExpand times limit 0 [initial_state {0}]
          (initial_state {0}) [(initial_state {0}, 0)] =
          ([], [(initial_state {0}, 0)]) := by
        unfold dfsExpand
        rw [hgroups, List.foldl_cons, List.foldl_nil]
        exact hdrelaxNeg
      show dfsLoop times limit (fuel + 2 + 1)
        ((0, [initial_state {0}], initial_state {0}) :: [])
        [(initial_state {0}, 0)] none none = _
      rw [dfsLoop_cons]
      rw [if_neg (show ¬(initial_state {0}).start_side = ∅ from by decide)]
      rw [if_neg (show ¬(geInf 0 none || decide (limit < 0)) = true from by
        simp [geInf])]
      rw [if_neg (show ¬staleB 0 (vlookup [(initial_state {0}, 0)]
        (initial_state {0})) = true from by decide)]
      rw [hdexpand]
      show dfsLoop times limit (fuel + 1 + 1) []
        [(initial_state {0}, 0)] none none = _
      exact dfsLoop_nil times limit (fuel + 1) _ _ _

theorem claim_C8_witness :
    (solve_bridge_problem_bfs {0} (fun _ => 3) 5 7 =
      some (some 3, some [initial_state {0}, Config.mk ∅ {0} UmbPos.uend],
        [(initial_state {0}, 0), (Config.mk ∅ {0} UmbPos.uend, 3)]) ∧
     solve_bridge_problem_dfs {0} (fun _ => 3) 5 8 =
      some (some 3, some [initial_state {0}, Config.mk ∅ {0} UmbPos.uend],
        [(initial_state {0}, 0), (Config.mk ∅ {0} UmbPos.uend, 3)])) ∧
    (solve_bridge_problem_bfs {0} (fun _ => 7) 5 7 =
      some (none, none, [(initial_state {0}, 0)]) ∧
     solve_bridge_problem_dfs {0} (fun _ => 7) 5 8 =
      some (none, none, [(initial_state {0}, 0)])) :=
  ⟨(claim_C8_single_person (fun _ => 3) 5 5).1 (by decide),
   (claim_C8_single_person (fun _ => 7) 5 5).2 (by decide)⟩
